import Mathlib

/-!
Verification of the `arcstr` representation / reference-counting / layout
subsystem (`src/arc_str.rs`), by a shallow embedding.

A Rust `usize` is modelled as a `Nat` together with explicit reductions
`% 2 ^ WORD` at the places where the source relies on wrapping arithmetic
(`fetch_add` / `fetch_sub` / `<<`); `WORD` is the pointer width (64).
A string is modelled as its byte sequence, a `List Nat`; payload bytes are
copied verbatim by the source (`copy_nonoverlapping`) and read back verbatim
(`as_bytes` / `from_utf8_unchecked`), so byte lists are the exact content.
Memory is modelled explicitly: `Mem` holds the static records embedded in the
program, the currently live heap records, a monotone allocation cursor and a
counter of allocator invocations.  Clone / drop return, besides the result,
a trace of accesses to count-field bytes and of deallocations, so that the
claims about which bytes are touched and when a record is freed are statable.
-/

/-- Pointer width in bits of the modelled platform (`usize` is 64-bit). -/
def WORD : Nat := 64

/-- `usize::MAX`. -/
def usizeMax : Nat := 2 ^ WORD - 1

/-- `isize::MAX as usize`. -/
def isizeMax : Nat := 2 ^ (WORD - 1) - 1

/-- `align_of::<ThinInner>()`: the header is `repr(C, align(8))`. -/
def ALIGN : Nat := 8

/-- `memoffset::offset_of!(ThinInner, data)`: two `usize` header fields
(`len_flags` at offset 0, `strong` at offset 8), payload at offset 16. -/
def DATA_OFFSET : Nat := 16

/-- `struct LenFlags(usize)`: the packed (length, discriminant) header field. -/
structure LenFlags where
  val : Nat
deriving DecidableEq, Repr

/-- `LenFlags::len`: `self.0 >> 1`. -/
def LenFlags.len (lf : LenFlags) : Nat := lf.val >>> 1

/-- `LenFlags::is_static`: `(self.0 & 1) == 0`. -/
def LenFlags.is_static (lf : LenFlags) : Bool := lf.val &&& 1 == 0

/-- `LenFlags::EMPTY_STATIC`: `LenFlags(0)`. -/
def LenFlags.EMPTY_STATIC : LenFlags := ⟨0⟩

/-- `LenFlags::from_len_static`: `l.checked_mul(2).map(|l| Self(l | (!is_static as usize)))`.
`checked_mul` succeeds exactly when the product fits in a `usize`. -/
def LenFlags.from_len_static (l : Nat) (s : Bool) : Option LenFlags :=
  if 2 * l ≤ usizeMax then some ⟨(2 * l) ||| (if s then 0 else 1)⟩ else none

/-- `LenFlags::from_len_static_raw`: `Self(l << 1 | (!is_static as usize))`;
the shift wraps at the word width. -/
def LenFlags.from_len_static_raw (l : Nat) (s : Bool) : LenFlags :=
  ⟨((l <<< 1) % 2 ^ WORD) ||| (if s then 0 else 1)⟩

theorem two_mul_lor_one (n : Nat) : 2 * n ||| 1 = 2 * n + 1 := by
  have h := Nat.lor_bit false n true 0
  simpa [Nat.bit_val] using h

theorem lenflags_encode_val (l : Nat) (s : Bool) :
    (2 * l) ||| (if s then 0 else 1) = 2 * l + (if s then 0 else 1) := by
  cases s with
  | false => simpa using two_mul_lor_one l
  | true => simp

theorem lenflags_decode_len (l : Nat) (s : Bool) :
    LenFlags.len ⟨(2 * l) ||| (if s then 0 else 1)⟩ = l := by
  rw [LenFlags.len, lenflags_encode_val, Nat.shiftRight_one]
  cases s <;> (simp only [if_true, if_false, Bool.false_eq_true, ite_false, ite_true]; omega)

theorem lenflags_decode_static (l : Nat) (s : Bool) :
    LenFlags.is_static ⟨(2 * l) ||| (if s then 0 else 1)⟩ = s := by
  rw [LenFlags.is_static, lenflags_encode_val, Nat.and_one_is_mod]
  cases s <;> simp [Nat.mul_add_mod, Nat.mul_mod_right]

/-- For lengths below the half-word bound the raw (unchecked) encoder agrees
with the checked one: no bits are shifted out. -/
theorem from_len_static_raw_eq (l : Nat) (s : Bool) (h : l < 2 ^ (WORD - 1)) :
    LenFlags.from_len_static_raw l s = ⟨(2 * l) ||| (if s then 0 else 1)⟩ := by
  rw [LenFlags.from_len_static_raw, Nat.shiftLeft_eq]
  have h2 : l * 2 ^ 1 < 2 ^ WORD := by
    norm_num [WORD] at h ⊢
    omega
  rw [Nat.mod_eq_of_lt h2]
  congr 2
  omega

/-- C5: the packed header encoding round-trips.  For every length `l` below
half the `usize` range and every flag `s`, the checked encoder produces the
value `l` shifted left by one with the low bit as discriminant (0 = static,
1 = dynamic); decoding it gives back `len = l` and `is_static = s`.  For
every `l` at or above that bound the checked encoder returns `none`. -/
theorem lenflags_roundtrip (l : Nat) (s : Bool) :
    (l < 2 ^ (WORD - 1) →
      LenFlags.from_len_static l s = some ⟨2 * l + (if s then 0 else 1)⟩
      ∧ (LenFlags.from_len_static l s).map LenFlags.len = some l
      ∧ (LenFlags.from_len_static l s).map LenFlags.is_static = some s)
    ∧ (2 ^ (WORD - 1) ≤ l → LenFlags.from_len_static l s = none) := by
  constructor
  · intro hl
    have hle : 2 * l ≤ usizeMax := by
      norm_num [usizeMax, WORD] at hl ⊢
      omega
    have henc : LenFlags.from_len_static l s = some ⟨(2 * l) ||| (if s then 0 else 1)⟩ := by
      rw [LenFlags.from_len_static, if_pos hle]
    refine ⟨?_, ?_, ?_⟩
    · rw [henc, lenflags_encode_val]
    · rw [henc, Option.map_some']
      exact congrArg some (lenflags_decode_len l s)
    · rw [henc, Option.map_some']
      exact congrArg some (lenflags_decode_static l s)
  · intro hl
    have hgt : ¬ 2 * l ≤ usizeMax := by
      norm_num [usizeMax, WORD] at hl ⊢
      omega
    rw [LenFlags.from_len_static, if_neg hgt]

/-- Witness for C5: the round-trip at `l = 3` (both flags) and the rejection
at `l = 2 ^ 63`, obtained by applying `lenflags_roundtrip`. -/
theorem lenflags_roundtrip_witness :
    LenFlags.from_len_static 3 false = some ⟨7⟩
    ∧ (LenFlags.from_len_static 3 false).map LenFlags.len = some 3
    ∧ (LenFlags.from_len_static 3 true).map LenFlags.is_static = some true
    ∧ LenFlags.from_len_static (2 ^ 63) false = none := by
  refine ⟨?_, ?_, ?_, ?_⟩
  · exact ((lenflags_roundtrip 3 false).1 (by decide)).1
  · exact ((lenflags_roundtrip 3 false).1 (by decide)).2.1
  · exact ((lenflags_roundtrip 3 true).1 (by decide)).2.2
  · exact (lenflags_roundtrip (2 ^ 63) false).2 (by rw [WORD])

/-- A pointer value (an address). -/
abbrev Ptr := Nat

/-- `InnerRepr` / `ThinInner`: header fields `len_flags` and `strong`
followed by the payload bytes.  For a static record the `strong` field is an
inert sentinel whose bytes this subsystem never reads nor writes. -/
structure InnerRepr where
  len_flags : LenFlags
  strong : Nat
  data : List Nat
deriving DecidableEq, Repr

/-- Association-list lookup over a record list (a region of memory). -/
def findRec : List (Ptr × InnerRepr) → Ptr → Option InnerRepr
  | [], _ => none
  | e :: es, p => if e.1 = p then some e.2 else findRec es p

/-- Overwrite the `strong` field of the record at `p` (an atomic store). -/
def setCount : List (Ptr × InnerRepr) → Ptr → Nat → List (Ptr × InnerRepr)
  | [], _, _ => []
  | e :: es, p, c =>
    (if e.1 = p then (e.1, { e.2 with strong := c }) else e) :: setCount es p c

/-- Remove the record at `p` (deallocation). -/
def removeRec : List (Ptr × InnerRepr) → Ptr → List (Ptr × InnerRepr)
  | [], _ => []
  | e :: es, p => if e.1 = p then removeRec es p else e :: removeRec es p

/-- The machine memory: the program's embedded static records, the live heap
records, the (monotone) next fresh heap address, and how many times the
allocator has been invoked. -/
structure Mem where
  statics : List (Ptr × InnerRepr)
  heap : List (Ptr × InnerRepr)
  next : Ptr
  allocs : Nat
deriving DecidableEq, Repr

/-- Dereference a pointer: the record at `p`, wherever it lives. -/
def Mem.get (m : Mem) (p : Ptr) : Option InnerRepr :=
  match findRec m.statics p with
  | some r => some r
  | none => findRec m.heap p

/-- Store a new count into the (heap) record at `p`. -/
def Mem.setStrong (m : Mem) (p : Ptr) (c : Nat) : Mem :=
  { m with heap := setCount m.heap p c }

/-- Deallocate the heap record at `p`. -/
def Mem.free (m : Mem) (p : Ptr) : Mem :=
  { m with heap := removeRec m.heap p }

/-- Obtain fresh memory from the allocator and place a record in it: one
allocator invocation, at the next fresh address. -/
def Mem.alloc (m : Mem) (r : InnerRepr) : Mem :=
  { m with heap := (m.next, r) :: m.heap, next := m.next + 1, allocs := m.allocs + 1 }

/-- Outcome of an operation: a normal result, process termination on a fatal
path (`abort` / the overflow `panic`), carrying the memory at the instant the
process dies, or behavior that is undefined in the source (dereferencing a
dangling handle) and unreachable from well-formed states. -/
inductive Outcome (α : Type) where
  | ok (val : α)
  | fatal (m : Mem)
  | ub
deriving DecidableEq, Repr

/-- `EMPTY_INNER`: the canonical static empty record
`{ len_flags: LenFlags::EMPTY_STATIC, strong: 0, data: [] }`. -/
def EMPTY_INNER : InnerRepr := ⟨LenFlags.EMPTY_STATIC, 0, []⟩

/-- The address at which `EMPTY_INNER` is embedded in the program. -/
def emptyPtr : Ptr := 0

/-- `ArcStr`: a single pointer. -/
structure ArcStr where
  ptr : Ptr
deriving DecidableEq, Repr

/-- `EMPTY`: the `ArcStr` wrapping the address of `EMPTY_INNER`. -/
def EMPTY : ArcStr := ⟨emptyPtr⟩

/-- `ArcStr::new`: returns `EMPTY`. -/
def ArcStr.new : ArcStr := EMPTY

/-- `ThinInner::get_len_flags`: read the `len_flags` field at offset 0. -/
def ThinInner.get_len_flags (m : Mem) (p : Ptr) : Option LenFlags :=
  (m.get p).map InnerRepr.len_flags

/-- `ThinInner::allocate`: fatal (`alloc_overflow`) when
`num_bytes >= isize::MAX - (offset_of(data) + ALIGN)`; otherwise obtain fresh
memory from the allocator and initialize `len_flags` (raw encoding, dynamic),
`strong = 1` and the payload bytes. -/
def ThinInner.allocate (data : List Nat) (m : Mem) : Outcome (Ptr × Mem) :=
  let num_bytes := data.length
  if num_bytes ≥ isizeMax - (DATA_OFFSET + ALIGN) then
    .fatal m
  else
    let r : InnerRepr := ⟨LenFlags.from_len_static_raw num_bytes false, 1, data⟩
    .ok (m.next, m.alloc r)

/-- `impl From<&str> for ArcStr`: empty input yields `ArcStr::new()` (no
allocation); non-empty input is copied into a fresh dynamic record. -/
def ArcStr.fromStr (s : List Nat) (m : Mem) : Outcome (ArcStr × Mem) :=
  if s.length = 0 then
    .ok (ArcStr.new, m)
  else
    match ThinInner.allocate s m with
    | .ok (p, m') => .ok (⟨p⟩, m')
    | .fatal m' => .fatal m'
    | .ub => .ub

/-- `ArcStr::len`: decode the length from the header. -/
def ArcStr.len (h : ArcStr) (m : Mem) : Option Nat :=
  (ThinInner.get_len_flags m h.ptr).map LenFlags.len

/-- `ArcStr::as_bytes`: the first `len` payload bytes, where `len` is decoded
from the header. -/
def ArcStr.as_bytes (h : ArcStr) (m : Mem) : Option (List Nat) :=
  (m.get h.ptr).map (fun r => r.data.take r.len_flags.len)

/-- `Deref` / `ArcStr::as_str`: `from_utf8_unchecked(self.as_bytes())` — the
same bytes, viewed as text. -/
def ArcStr.as_str (h : ArcStr) (m : Mem) : Option (List Nat) :=
  h.as_bytes m

/-- `ArcStr::is_static`: decode the discriminant from the header. -/
def ArcStr.is_static (h : ArcStr) (m : Mem) : Option Bool :=
  (ThinInner.get_len_flags m h.ptr).map LenFlags.is_static

/-- `ArcStr::strong_count`: `None` for a static record (the count bytes are
not read); the value of the count field otherwise. -/
def ArcStr.strong_count (h : ArcStr) (m : Mem) : Option (Option Nat) :=
  (m.get h.ptr).map (fun r => if r.len_flags.is_static then none else some r.strong)

/-- `ArcStr::ptr_eq`: address comparison. -/
def ArcStr.ptr_eq (a b : ArcStr) : Bool := a.ptr == b.ptr

/-- A memory access relevant to the reference-count protocol: a read or a
write of a record's count-field bytes, or a deallocation of a record. -/
inductive Access where
  | countRead (p : Ptr)
  | countWrite (p : Ptr)
  | dealloc (p : Ptr)
deriving DecidableEq, Repr

/-- `impl Clone for ArcStr`: read the header; a static record is untouched
(pointer duplication only); otherwise `fetch_add(1, Relaxed)` on the count
(with wrap at the word width), then `abort()` when the fetched (previous)
value exceeds `isize::MAX`.  The returned trace records every access to
count-field bytes. -/
def ArcStr.clone (h : ArcStr) (m : Mem) : Outcome (ArcStr × Mem) × List Access :=
  match m.get h.ptr with
  | none => (.ub, [])
  | some r =>
    if r.len_flags.is_static then
      (.ok (⟨h.ptr⟩, m), [])
    else
      let n := r.strong
      let m' := m.setStrong h.ptr ((n + 1) % 2 ^ WORD)
      if n > isizeMax then
        (.fatal m', [.countRead h.ptr, .countWrite h.ptr])
      else
        (.ok (⟨h.ptr⟩, m'), [.countRead h.ptr, .countWrite h.ptr])

/-- `impl Drop for ArcStr`: read the header; return immediately for a static
record; otherwise `fetch_sub(1, Release)` (wrapping), and when the fetched
(previous) value is 1, an `Acquire` load of the count followed by
`ThinInner::destroy_cold` (deallocation). -/
def ArcStr.drop (h : ArcStr) (m : Mem) : Outcome Mem × List Access :=
  match m.get h.ptr with
  | none => (.ub, [])
  | some r =>
    if r.len_flags.is_static then
      (.ok m, [])
    else
      let n := r.strong
      if n = 1 then
        (.ok (m.free h.ptr),
          [.countRead h.ptr, .countWrite h.ptr, .countRead h.ptr, .dealloc h.ptr])
      else
        (.ok (m.setStrong h.ptr ((n + (2 ^ WORD - 1)) % 2 ^ WORD)),
          [.countRead h.ptr, .countWrite h.ptr])

/-- `Cow<str>`: borrowed or owned text. -/
inductive CowStr where
  | borrowed (s : List Nat)
  | owned (s : List Nat)
deriving DecidableEq, Repr

/-- `Cow::deref`: the underlying text. -/
def CowStr.as_str : CowStr → List Nat
  | .borrowed s => s
  | .owned s => s

/-- `impl From<String> for ArcStr`: `v.as_str().into()`. -/
def ArcStr.fromString (v : List Nat) (m : Mem) : Outcome (ArcStr × Mem) :=
  ArcStr.fromStr v m

/-- `impl From<&mut str> for ArcStr`: reborrow and forward. -/
def ArcStr.fromMutStr (s : List Nat) (m : Mem) : Outcome (ArcStr × Mem) :=
  ArcStr.fromStr s m

/-- `impl From<Box<str>> for ArcStr`: `Self::from(&s[..])`. -/
def ArcStr.fromBoxStr (s : List Nat) (m : Mem) : Outcome (ArcStr × Mem) :=
  ArcStr.fromStr s m

/-- `impl From<Rc<str>> for ArcStr`: deref and forward. -/
def ArcStr.fromRcStr (s : List Nat) (m : Mem) : Outcome (ArcStr × Mem) :=
  ArcStr.fromStr s m

/-- `impl From<Arc<str>> for ArcStr`: deref and forward. -/
def ArcStr.fromArcOfStr (s : List Nat) (m : Mem) : Outcome (ArcStr × Mem) :=
  ArcStr.fromStr s m

/-- `impl From<Cow<str>> for ArcStr`: deref and forward. -/
def ArcStr.fromCow (c : CowStr) (m : Mem) : Outcome (ArcStr × Mem) :=
  ArcStr.fromStr c.as_str m

/-- `impl From<&String> for ArcStr`: `Self::from(s.as_str())`. -/
def ArcStr.fromRefString (s : List Nat) (m : Mem) : Outcome (ArcStr × Mem) :=
  ArcStr.fromStr s m

/-- `ArcStr::into_raw`: return the wrapped pointer and forget the handle —
no drop runs, the memory is untouched. -/
def ArcStr.into_raw (h : ArcStr) (m : Mem) : Ptr × Mem :=
  (h.ptr, m)

/-- `ArcStr::from_raw`: wrap the pointer back up — the memory is untouched. -/
def ArcStr.from_raw (p : Ptr) (m : Mem) : ArcStr × Mem :=
  (⟨p⟩, m)

/-- `type Err = Infallible` of the `FromStr` impl: an uninhabited type. -/
def ArcStrParseErr : Type := Empty

/-- `impl FromStr for ArcStr`: `Ok(Self::from(s))`. -/
def ArcStr.from_str (s : List Nat) (m : Mem) : Outcome (Except ArcStrParseErr ArcStr × Mem) :=
  match ArcStr.fromStr s m with
  | .ok (h, m') => .ok (.ok h, m')
  | .fatal m' => .fatal m'
  | .ub => .ub

/-- `impl PartialEq for ArcStr`, `eq`: `ArcStr::ptr_eq(self, o) ||
self.as_str() == o.as_str()` — identity short-circuits, content decides
otherwise. -/
def ArcStr.eqArc (a b : ArcStr) (m : Mem) : Option Bool :=
  if ArcStr.ptr_eq a b then some true
  else
    match a.as_str m, b.as_str m with
    | some x, some y => some (x == y)
    | _, _ => none

/-- `impl PartialEq for ArcStr`, `ne`: `!ArcStr::ptr_eq(self, o) &&
self.as_str() != o.as_str()`. -/
def ArcStr.neArc (a b : ArcStr) (m : Mem) : Option Bool :=
  if ArcStr.ptr_eq a b then some false
  else
    match a.as_str m, b.as_str m with
    | some x, some y => some (x != y)
    | _, _ => none

/-- `impl Hash for ArcStr`: `self.as_str().hash(h)` — the hasher consumes
exactly the content; `f` stands for an arbitrary hasher. -/
def ArcStr.hashWith (f : List Nat → Nat) (h : ArcStr) (m : Mem) : Option Nat :=
  (h.as_str m).map f

/-- A UTF-8 continuation byte. -/
def isCont (b : Nat) : Bool := 0x80 ≤ b && b ≤ 0xBF

/-- UTF-8 validity of a byte sequence (the condition `str` payloads satisfy;
validated at the trust boundary, before this subsystem is entered). -/
def validUtf8 : List Nat → Bool
  | [] => true
  | b :: rest =>
    if b ≤ 0x7F then validUtf8 rest
    else if 0xC2 ≤ b && b ≤ 0xDF then
      match rest with
      | c :: r => isCont c && validUtf8 r
      | [] => false
    else if b = 0xE0 then
      match rest with
      | c1 :: c2 :: r => (0xA0 ≤ c1 && c1 ≤ 0xBF) && isCont c2 && validUtf8 r
      | _ => false
    else if (0xE1 ≤ b && b ≤ 0xEC) || b = 0xEE || b = 0xEF then
      match rest with
      | c1 :: c2 :: r => isCont c1 && isCont c2 && validUtf8 r
      | _ => false
    else if b = 0xED then
      match rest with
      | c1 :: c2 :: r => (0x80 ≤ c1 && c1 ≤ 0x9F) && isCont c2 && validUtf8 r
      | _ => false
    else if b = 0xF0 then
      match rest with
      | c1 :: c2 :: c3 :: r => (0x90 ≤ c1 && c1 ≤ 0xBF) && isCont c2 && isCont c3 && validUtf8 r
      | _ => false
    else if 0xF1 ≤ b && b ≤ 0xF3 then
      match rest with
      | c1 :: c2 :: c3 :: r => isCont c1 && isCont c2 && isCont c3 && validUtf8 r
      | _ => false
    else if b = 0xF4 then
      match rest with
      | c1 :: c2 :: c3 :: r => (0x80 ≤ c1 && c1 ≤ 0x8F) && isCont c2 && isCont c3 && validUtf8 r
      | _ => false
    else false

theorem findRec_mem {l : List (Ptr × InnerRepr)} {p : Ptr} {r : InnerRepr}
    (h : findRec l p = some r) : (p, r) ∈ l := by
  induction l with
  | nil => simp [findRec] at h
  | cons e es ih =>
    rw [findRec] at h
    by_cases he : e.1 = p
    · rw [if_pos he] at h
      obtain rfl : e.2 = r := Option.some.inj h
      obtain ⟨q, v⟩ := e
      subst he
      exact List.mem_cons_self _ _
    · rw [if_neg he] at h
      exact List.mem_cons_of_mem _ (ih h)

theorem findRec_none_of_lt {l : List (Ptr × InnerRepr)} {p : Ptr}
    (h : ∀ e ∈ l, e.1 < p) : findRec l p = none := by
  induction l with
  | nil => rfl
  | cons e es ih =>
    rw [findRec]
    have he : e.1 < p := h e (List.mem_cons_self e es)
    rw [if_neg (Nat.ne_of_lt he)]
    exact ih fun e' he' => h e' (List.mem_cons_of_mem _ he')

/-- Well-formedness of a memory: the canonical empty record is embedded at
`emptyPtr`; static records are flagged static and live below the allocation
cursor; heap addresses are distinct, disjoint from the statics, below the
cursor; heap records are flagged dynamic with a count in `[1, isize::MAX + 1]`. -/
def MemWF (m : Mem) : Prop :=
  findRec m.statics emptyPtr = some EMPTY_INNER
  ∧ (∀ e ∈ m.statics, (e.2).len_flags.is_static = true ∧ e.1 < m.next)
  ∧ List.Nodup (m.heap.map Prod.fst)
  ∧ (∀ e ∈ m.heap, findRec m.statics e.1 = none ∧ e.1 < m.next
      ∧ (e.2).len_flags.is_static = false
      ∧ 1 ≤ (e.2).strong ∧ (e.2).strong ≤ isizeMax + 1)

instance (m : Mem) : Decidable (MemWF m) := by
  unfold MemWF
  exact inferInstance

/-- Every heap record of a well-formed memory has a length below the
half-word bound, hence its header decodes losslessly. -/
theorem statics_get {m : Mem} (hwf : MemWF m) :
    m.get emptyPtr = some EMPTY_INNER := by
  rw [Mem.get, hwf.1]

theorem get_fresh {m : Mem} (hwf : MemWF m) (r : InnerRepr) :
    Mem.get (m.alloc r) m.next = some r := by
  rw [Mem.get, Mem.alloc]
  have hs : findRec m.statics m.next = none :=
    findRec_none_of_lt fun e he => (hwf.2.1 e he).2
  simp [hs, findRec]

/-- C1: round-trip.  For every valid-UTF-8 content `s` (empty included), if
construction from `s` returns, then reading the content back through
`as_bytes` / `as_str` yields exactly `s`, and `len` is its length. -/
theorem arc_roundtrip (s : List Nat) (m : Mem) (h : ArcStr) (m' : Mem)
    (hv : validUtf8 s = true) (hwf : MemWF m)
    (hctor : ArcStr.fromStr s m = .ok (h, m')) :
    h.as_bytes m' = some s ∧ h.as_str m' = some s ∧ h.len m' = some s.length := by
  rw [ArcStr.fromStr] at hctor
  by_cases hz : s.length = 0
  · rw [if_pos hz] at hctor
    obtain ⟨rfl, rfl⟩ : ArcStr.new = h ∧ m = m' := by
      cases hctor; exact ⟨rfl, rfl⟩
    have hs : s = [] := List.length_eq_zero.mp hz
    subst hs
    have hget : Mem.get m (ArcStr.new).ptr = some EMPTY_INNER := statics_get hwf
    refine ⟨?_, ?_, ?_⟩
    · rw [ArcStr.as_bytes, hget]; rfl
    · rw [ArcStr.as_str, ArcStr.as_bytes, hget]; rfl
    · rw [ArcStr.len, ThinInner.get_len_flags, hget]; rfl
  · rw [if_neg hz, ThinInner.allocate] at hctor
    by_cases hbig : s.length ≥ isizeMax - (DATA_OFFSET + ALIGN)
    · rw [if_pos hbig] at hctor
      cases hctor
    · rw [if_neg hbig] at hctor
      simp only [Outcome.ok.injEq, Prod.mk.injEq] at hctor
      obtain ⟨rfl, rfl⟩ := hctor
      have hlt : s.length < 2 ^ (WORD - 1) := by
        norm_num [isizeMax, DATA_OFFSET, ALIGN, WORD] at hbig ⊢
        omega
      have hget := get_fresh hwf ⟨LenFlags.from_len_static_raw s.length false, 1, s⟩
      have hlen : (LenFlags.from_len_static_raw s.length false).len = s.length := by
        rw [from_len_static_raw_eq _ _ hlt]
        exact lenflags_decode_len s.length false
      refine ⟨?_, ?_, ?_⟩
      · simp only [ArcStr.as_bytes, hget, Option.map_some']
        simp [hlen]
      · simp only [ArcStr.as_str, ArcStr.as_bytes, hget, Option.map_some']
        simp [hlen]
      · simp only [ArcStr.len, ThinInner.get_len_flags, hget, Option.map_some', hlen]

/-- Witness for C1: round-trip of the two-byte string "ab" and of the empty
string from a concrete well-formed memory, via `arc_roundtrip`. -/
def initMem : Mem := ⟨[(emptyPtr, EMPTY_INNER)], [], 1, 0⟩

theorem arc_roundtrip_witness :
    (ArcStr.as_bytes ⟨1⟩ ⟨[(emptyPtr, EMPTY_INNER)],
        [(1, ⟨LenFlags.from_len_static_raw 2 false, 1, [97, 98]⟩)], 2, 1⟩ = some [97, 98])
    ∧ (ArcStr.as_bytes ArcStr.new initMem = some []) := by
  constructor
  · exact (arc_roundtrip [97, 98] initMem ⟨1⟩ _ (by decide) (by decide) rfl).1
  · exact (arc_roundtrip [] initMem ArcStr.new initMem (by decide) (by decide) rfl).1

/-- C3: every empty-content construction, from every supported input
representation, returns `ArcStr::new()` — the handle wrapping the address of
the one canonical static empty record — and returns the memory unchanged, so
the allocator is never invoked. -/
theorem empty_construction_canonical : ∀ m : Mem,
    ArcStr.fromStr [] m = .ok (ArcStr.new, m)
    ∧ ArcStr.fromString [] m = .ok (ArcStr.new, m)
    ∧ ArcStr.fromMutStr [] m = .ok (ArcStr.new, m)
    ∧ ArcStr.fromBoxStr [] m = .ok (ArcStr.new, m)
    ∧ ArcStr.fromRcStr [] m = .ok (ArcStr.new, m)
    ∧ ArcStr.fromArcOfStr [] m = .ok (ArcStr.new, m)
    ∧ ArcStr.fromCow (.borrowed []) m = .ok (ArcStr.new, m)
    ∧ ArcStr.fromCow (.owned []) m = .ok (ArcStr.new, m)
    ∧ ArcStr.fromRefString [] m = .ok (ArcStr.new, m)
    ∧ ArcStr.new = EMPTY
    ∧ ArcStr.new.ptr = emptyPtr
    ∧ EMPTY_INNER.len_flags.is_static = true
    ∧ EMPTY_INNER.len_flags.len = 0 := by
  intro m
  exact ⟨rfl, rfl, rfl, rfl, rfl, rfl, rfl, rfl, rfl, rfl, rfl, rfl, rfl⟩

theorem allocate_eq_fatal {s : List Nat} (m : Mem)
    (hbig : isizeMax - (DATA_OFFSET + ALIGN) ≤ s.length) :
    ThinInner.allocate s m = .fatal m := by
  simp only [ThinInner.allocate]
  rw [if_pos hbig]

theorem allocate_eq_ok {s : List Nat} (m : Mem)
    (hsmall : s.length < isizeMax - (DATA_OFFSET + ALIGN)) :
    ThinInner.allocate s m =
      .ok (m.next, m.alloc ⟨LenFlags.from_len_static_raw s.length false, 1, s⟩) := by
  simp only [ThinInner.allocate]
  rw [if_neg (by omega)]

/-- C8 (amended): `ThinInner::allocate` is fatal — terminating with the
memory untouched, hence before any allocator invocation — exactly when
`len >= isize::MAX - (offset_of(data) + ALIGN)`.  In particular every length
that would exceed `isize::MAX` when added to the header size is rejected, but
the check is conservative by an extra `offset + align` guard band.  For every
length below the code's bound, `allocate` returns a record whose header
(length, dynamic discriminant, count = 1) and payload are fully
initialized, after exactly one allocator invocation. -/
theorem allocate_fatal_and_init (s : List Nat) (m : Mem) :
    (isizeMax < s.length + DATA_OFFSET → ThinInner.allocate s m = .fatal m)
    ∧ (isizeMax - (DATA_OFFSET + ALIGN) ≤ s.length → ThinInner.allocate s m = .fatal m)
    ∧ (s.length < isizeMax - (DATA_OFFSET + ALIGN) →
        ThinInner.allocate s m =
          .ok (m.next, m.alloc ⟨LenFlags.from_len_static_raw s.length false, 1, s⟩)
        ∧ findRec (m.alloc ⟨LenFlags.from_len_static_raw s.length false, 1, s⟩).heap m.next =
            some ⟨LenFlags.from_len_static_raw s.length false, 1, s⟩
        ∧ (LenFlags.from_len_static_raw s.length false).len = s.length
        ∧ (LenFlags.from_len_static_raw s.length false).is_static = false
        ∧ (m.alloc ⟨LenFlags.from_len_static_raw s.length false, 1, s⟩).allocs
            = m.allocs + 1) := by
  refine ⟨?_, ?_, ?_⟩
  · intro hover
    refine allocate_eq_fatal m ?_
    norm_num [isizeMax, DATA_OFFSET, ALIGN, WORD] at hover ⊢
    omega
  · exact allocate_eq_fatal m
  · intro hsmall
    have hlt : s.length < 2 ^ (WORD - 1) := by
      norm_num [isizeMax, DATA_OFFSET, ALIGN, WORD] at hsmall ⊢
      omega
    refine ⟨allocate_eq_ok m hsmall, ?_, ?_, ?_, rfl⟩
    · rw [Mem.alloc]
      simp [findRec]
    · rw [from_len_static_raw_eq _ _ hlt]
      exact lenflags_decode_len s.length false
    · rw [from_len_static_raw_eq _ _ hlt]
      exact lenflags_decode_static s.length false

/-- Witness for C8 (amended): a one-byte allocation initializes the record,
and a byte sequence of length `isize::MAX` triggers the fatal path; both by
applying `allocate_fatal_and_init`. -/
theorem allocate_fatal_and_init_witness :
    ThinInner.allocate [97] initMem =
      .ok (1, initMem.alloc ⟨LenFlags.from_len_static_raw 1 false, 1, [97]⟩)
    ∧ ThinInner.allocate (List.replicate (2 ^ 63 - 1) 97) initMem = .fatal initMem := by
  constructor
  · exact ((allocate_fatal_and_init [97] initMem).2.2 (by decide)).1
  · refine (allocate_fatal_and_init (List.replicate (2 ^ 63 - 1) 97) initMem).2.1 ?_
    rw [List.length_replicate]
    norm_num [isizeMax, DATA_OFFSET, ALIGN, WORD]

/-- Counterexample for C8 as stated: the byte sequence of length
`isize::MAX - 25` fits the claimed bound — its length plus the header size
does not exceed `isize::MAX` — yet `allocate` takes the fatal overflow path
instead of returning an initialized record, because the code's check also
reserves an alignment-sized guard band. -/
theorem allocate_claimed_bound_counterexample :
    (List.replicate (2 ^ 63 - 25) 97).length + DATA_OFFSET ≤ isizeMax
    ∧ 0 < (List.replicate (2 ^ 63 - 25) 97).length
    ∧ ThinInner.allocate (List.replicate (2 ^ 63 - 25) 97) initMem = .fatal initMem := by
  refine ⟨?_, ?_, ?_⟩
  · rw [List.length_replicate]
    norm_num [isizeMax, DATA_OFFSET, WORD]
  · rw [List.length_replicate]
    norm_num
  · refine allocate_eq_fatal initMem ?_
    rw [List.length_replicate]
    norm_num [isizeMax, DATA_OFFSET, ALIGN, WORD]

/-- C9: the raw-pointer round trip.  `from_raw (into_raw h)` yields back the
very same handle (pointer-equal) and touches the memory not at all: no clone,
no drop, every record's count and content are exactly as before. -/
theorem raw_roundtrip : ∀ (h : ArcStr) (m : Mem),
    ArcStr.from_raw (ArcStr.into_raw h m).1 (ArcStr.into_raw h m).2 = (h, m)
    ∧ ArcStr.ptr_eq (ArcStr.from_raw (ArcStr.into_raw h m).1 (ArcStr.into_raw h m).2).1 h = true
    ∧ ArcStr.strong_count (ArcStr.from_raw (ArcStr.into_raw h m).1 (ArcStr.into_raw h m).2).1
        (ArcStr.from_raw (ArcStr.into_raw h m).1 (ArcStr.into_raw h m).2).2
      = ArcStr.strong_count h m
    ∧ ArcStr.as_bytes (ArcStr.from_raw (ArcStr.into_raw h m).1 (ArcStr.into_raw h m).2).1
        (ArcStr.from_raw (ArcStr.into_raw h m).1 (ArcStr.into_raw h m).2).2
      = ArcStr.as_bytes h m := by
  intro h m
  refine ⟨rfl, ?_, rfl, rfl⟩
  simp [ArcStr.ptr_eq, ArcStr.from_raw, ArcStr.into_raw]

/-- C10: parsing never fails.  The `FromStr` error type is uninhabited, and
whenever `from_str` returns, its value is `Ok` of exactly the handle (and
memory) that `ArcStr::from` produces on the same input. -/
theorem from_str_infallible :
    (ArcStrParseErr → False)
    ∧ ∀ (s : List Nat) (m : Mem) (out : Except ArcStrParseErr ArcStr × Mem),
        ArcStr.from_str s m = .ok out →
        ∃ h m', out = (.ok h, m') ∧ ArcStr.fromStr s m = .ok (h, m') := by
  constructor
  · exact fun e => Empty.elim e
  · intro s m out hok
    rw [ArcStr.from_str] at hok
    cases hres : ArcStr.fromStr s m with
    | ok val =>
      obtain ⟨h, m'⟩ := val
      rw [hres] at hok
      cases hok
      exact ⟨h, m', rfl, rfl⟩
    | fatal mf => rw [hres] at hok; cases hok
    | ub => rw [hres] at hok; cases hok

/-- Witness for C10: parsing the one-byte string "a" from a concrete memory,
via `from_str_infallible`. -/
theorem from_str_infallible_witness :
    ∃ (h : ArcStr) (m' : Mem),
      ((Except.ok ⟨1⟩ : Except ArcStrParseErr ArcStr),
        initMem.alloc ⟨LenFlags.from_len_static_raw 1 false, 1, [97]⟩) = (Except.ok h, m')
      ∧ ArcStr.fromStr [97] initMem = .ok (h, m') :=
  from_str_infallible.2 [97] initMem _ rfl

/-- A concrete memory whose one dynamic record ("foobar") has its count at
exactly `isize::MAX`: the edge state for the clone overflow guard. -/
def cloneEdgeMem : Mem :=
  ⟨[(emptyPtr, EMPTY_INNER)],
   [(1, ⟨LenFlags.from_len_static_raw 6 false, isizeMax, [102, 111, 111, 98, 97, 114]⟩)],
   2, 1⟩

/-- Counterexample for C6 as stated: at a dynamic record whose count is
exactly `isize::MAX`, the increment pushes the count past `isize::MAX` — yet
`clone` returns normally (with the count at `isize::MAX + 1`) instead of
aborting, because the guard tests the value fetched before the increment. -/
theorem clone_overflow_counterexample :
    ArcStr.strong_count ⟨1⟩ cloneEdgeMem = some (some isizeMax)
    ∧ isizeMax < isizeMax + 1
    ∧ ArcStr.clone ⟨1⟩ cloneEdgeMem =
        (.ok (⟨1⟩, cloneEdgeMem.setStrong 1 (isizeMax + 1)),
         [.countRead 1, .countWrite 1]) := by
  refine ⟨?_, Nat.lt_succ_self _, ?_⟩
  · rfl
  · decide

/-- C6 (amended): cloning a dynamic handle aborts exactly when the count
fetched before the increment already exceeds `isize::MAX` — i.e. when the
increment would push the count past `isize::MAX + 1` — and returns normally,
with the count incremented by one, whenever the fetched count is at most
`isize::MAX`. -/
theorem clone_overflow_guard (m : Mem) (h : ArcStr) (r : InnerRepr)
    (hget : m.get h.ptr = some r) (hdyn : r.len_flags.is_static = false) :
    (isizeMax < r.strong →
      ArcStr.clone h m =
        (.fatal (m.setStrong h.ptr ((r.strong + 1) % 2 ^ WORD)),
         [.countRead h.ptr, .countWrite h.ptr]))
    ∧ (r.strong ≤ isizeMax →
      ArcStr.clone h m =
        (.ok (⟨h.ptr⟩, m.setStrong h.ptr (r.strong + 1)),
         [.countRead h.ptr, .countWrite h.ptr])) := by
  constructor
  · intro hover
    simp only [ArcStr.clone, hget, hdyn, Bool.false_eq_true, ite_false, gt_iff_lt]
    rw [if_pos hover]
  · intro hok
    simp only [ArcStr.clone, hget, hdyn, Bool.false_eq_true, ite_false, gt_iff_lt]
    rw [if_neg (by omega)]
    have hmod : (r.strong + 1) % 2 ^ WORD = r.strong + 1 := by
      rw [isizeMax] at hok
      rw [WORD] at hok ⊢
      apply Nat.mod_eq_of_lt
      omega
    rw [hmod]

/-- Witness for C6 (amended): cloning the single-share record for "a"
returns normally with the count at 2, via `clone_overflow_guard`. -/
theorem clone_overflow_guard_witness :
    ArcStr.clone ⟨1⟩ (initMem.alloc ⟨LenFlags.from_len_static_raw 1 false, 1, [97]⟩) =
      (.ok (⟨1⟩, (initMem.alloc ⟨LenFlags.from_len_static_raw 1 false, 1, [97]⟩).setStrong 1 2),
       [.countRead 1, .countWrite 1]) :=
  (clone_overflow_guard (initMem.alloc ⟨LenFlags.from_len_static_raw 1 false, 1, [97]⟩)
    ⟨1⟩ ⟨LenFlags.from_len_static_raw 1 false, 1, [97]⟩ rfl (by decide)).2 (by decide)

/-- C7: equality is content equality (with the identity short-circuit being
only an optimization), `ne` is the exact negation of `eq`, a clone is
pointer-equal to its source, and handles with equal content hash
identically. -/
theorem eq_hash_content :
    (∀ (a b : ArcStr) (m : Mem) (x y : List Nat),
        a.as_str m = some x → b.as_str m = some y →
        a.eqArc b m = some (x == y)
        ∧ a.neArc b m = some (!(x == y))
        ∧ (ArcStr.ptr_eq a b = true → x = y ∧ a.eqArc b m = some true))
    ∧ (∀ (h : ArcStr) (m : Mem) (h' : ArcStr) (m' : Mem) (tr : List Access),
        ArcStr.clone h m = (.ok (h', m'), tr) → ArcStr.ptr_eq h' h = true)
    ∧ (∀ (a b : ArcStr) (m : Mem) (x : List Nat) (f : List Nat → Nat),
        a.as_str m = some x → b.as_str m = some x →
        a.hashWith f m = b.hashWith f m) := by
  refine ⟨?_, ?_, ?_⟩
  · intro a b m x y hx hy
    by_cases hp : ArcStr.ptr_eq a b = true
    · have hab : a.ptr = b.ptr := by
        simpa [ArcStr.ptr_eq] using hp
      have hxy : x = y := by
        rw [ArcStr.as_str, ArcStr.as_bytes, hab] at hx
        rw [ArcStr.as_str, ArcStr.as_bytes] at hy
        rw [hx] at hy
        exact Option.some.inj hy
      subst hxy
      refine ⟨?_, ?_, fun _ => ⟨rfl, ?_⟩⟩ <;>
        simp [ArcStr.eqArc, ArcStr.neArc, hp]
    · have hp' : ArcStr.ptr_eq a b = false := by
        revert hp
        cases ArcStr.ptr_eq a b <;> simp
      refine ⟨?_, ?_, fun hcontra => absurd hcontra hp⟩ <;>
        simp [ArcStr.eqArc, ArcStr.neArc, hp', hx, hy, bne]
  · intro h m h' m' tr hcl
    simp only [ArcStr.clone] at hcl
    split at hcl
    · simp at hcl
    · split at hcl
      · simp only [Prod.mk.injEq, Outcome.ok.injEq] at hcl
        obtain ⟨⟨h1, _⟩, _⟩ := hcl
        rw [← h1, ArcStr.ptr_eq]
        simp
      · split at hcl
        · simp at hcl
        · simp only [Prod.mk.injEq, Outcome.ok.injEq] at hcl
          obtain ⟨⟨h1, _⟩, _⟩ := hcl
          rw [← h1, ArcStr.ptr_eq]
          simp
  · intro a b m x f hx hy
    rw [ArcStr.hashWith, ArcStr.hashWith, hx, hy]

/-- A memory with two distinct dynamic records holding the same content. -/
def hashEdgeMem : Mem :=
  ⟨[(emptyPtr, EMPTY_INNER)],
   [(1, ⟨LenFlags.from_len_static_raw 3 false, 1, [97, 98, 99]⟩),
    (2, ⟨LenFlags.from_len_static_raw 3 false, 1, [97, 98, 99]⟩)], 3, 2⟩

/-- Witness for C7: two independently constructed handles with equal content
compare equal and hash identically, via `eq_hash_content`. -/
theorem eq_hash_content_witness :
    ArcStr.eqArc ⟨1⟩ ⟨2⟩ hashEdgeMem = some ([97, 98, 99] == [97, 98, 99])
    ∧ ArcStr.hashWith List.length ⟨1⟩ hashEdgeMem
        = ArcStr.hashWith List.length ⟨2⟩ hashEdgeMem := by
  constructor
  · exact (eq_hash_content.1 ⟨1⟩ ⟨2⟩ hashEdgeMem [97, 98, 99] [97, 98, 99] rfl rfl).1
  · exact eq_hash_content.2.2 ⟨1⟩ ⟨2⟩ hashEdgeMem [97, 98, 99] List.length rfl rfl

theorem findRec_setCount_self (l : List (Ptr × InnerRepr)) (p : Ptr) (c : Nat) :
    findRec (setCount l p c) p = (findRec l p).map fun r => { r with strong := c } := by
  induction l with
  | nil => rfl
  | cons e es ih =>
    by_cases he : e.1 = p
    · simp [setCount, findRec, he, ih]
    · simp [setCount, findRec, he, ih]

theorem findRec_setCount_ne (l : List (Ptr × InnerRepr)) {p q : Ptr} (c : Nat)
    (hne : q ≠ p) : findRec (setCount l p c) q = findRec l q := by
  induction l with
  | nil => rfl
  | cons e es ih =>
    rw [setCount, findRec, findRec]
    by_cases he : e.1 = p
    · rw [if_pos he]
      have : p ≠ q := fun hh => hne hh.symm
      rw [if_neg (by simpa [he] using this), if_neg (by rw [he]; exact this)]
      exact ih
    · rw [if_neg he]
      by_cases heq : e.1 = q
      · rw [if_pos heq, if_pos heq]
      · rw [if_neg heq, if_neg heq]
        exact ih

theorem keys_setCount (l : List (Ptr × InnerRepr)) (p : Ptr) (c : Nat) :
    (setCount l p c).map Prod.fst = l.map Prod.fst := by
  induction l with
  | nil => rfl
  | cons e es ih =>
    rw [setCount, List.map_cons, List.map_cons, ih]
    by_cases he : e.1 = p
    · rw [if_pos he]
    · rw [if_neg he]

theorem mem_setCount {l : List (Ptr × InnerRepr)} {p : Ptr} {c : Nat} {e : Ptr × InnerRepr}
    (he : e ∈ setCount l p c) :
    ∃ e0 ∈ l, e = if e0.1 = p then (e0.1, { e0.2 with strong := c }) else e0 := by
  induction l with
  | nil => cases he
  | cons e1 es ih =>
    rw [setCount] at he
    rcases List.mem_cons.mp he with h1 | h2
    · exact ⟨e1, List.mem_cons_self _ _, h1⟩
    · obtain ⟨e0, hm, hv⟩ := ih h2
      exact ⟨e0, List.mem_cons_of_mem _ hm, hv⟩

theorem findRec_removeRec_self (l : List (Ptr × InnerRepr)) (p : Ptr) :
    findRec (removeRec l p) p = none := by
  induction l with
  | nil => rfl
  | cons e es ih =>
    rw [removeRec]
    by_cases he : e.1 = p
    · rw [if_pos he]
      exact ih
    · rw [if_neg he, findRec, if_neg he]
      exact ih

theorem findRec_removeRec_ne (l : List (Ptr × InnerRepr)) {p q : Ptr}
    (hne : q ≠ p) : findRec (removeRec l p) q = findRec l q := by
  induction l with
  | nil => rfl
  | cons e es ih =>
    rw [removeRec, findRec]
    by_cases he : e.1 = p
    · rw [if_pos he, if_neg (by rw [he]; exact fun hh => hne hh.symm)]
      exact ih
    · rw [if_neg he, findRec]
      by_cases heq : e.1 = q
      · rw [if_pos heq, if_pos heq]
      · rw [if_neg heq, if_neg heq]
        exact ih

theorem mem_removeRec {l : List (Ptr × InnerRepr)} {p : Ptr} {e : Ptr × InnerRepr}
    (he : e ∈ removeRec l p) : e ∈ l ∧ e.1 ≠ p := by
  induction l with
  | nil => cases he
  | cons e1 es ih =>
    rw [removeRec] at he
    by_cases h1 : e1.1 = p
    · rw [if_pos h1] at he
      obtain ⟨hm, hne⟩ := ih he
      exact ⟨List.mem_cons_of_mem _ hm, hne⟩
    · rw [if_neg h1] at he
      rcases List.mem_cons.mp he with hh | hh
      · subst hh
        exact ⟨List.mem_cons_self _ _, h1⟩
      · obtain ⟨hm, hne⟩ := ih hh
        exact ⟨List.mem_cons_of_mem _ hm, hne⟩

theorem keys_removeRec_nodup {l : List (Ptr × InnerRepr)} {p : Ptr}
    (h : (l.map Prod.fst).Nodup) : ((removeRec l p).map Prod.fst).Nodup := by
  induction l with
  | nil => exact h
  | cons e es ih =>
    rw [List.map_cons, List.nodup_cons] at h
    rw [removeRec]
    by_cases he : e.1 = p
    · rw [if_pos he]
      exact ih h.2
    · rw [if_neg he, List.map_cons, List.nodup_cons]
      refine ⟨?_, ih h.2⟩
      intro hmem
      obtain ⟨e', he', hq⟩ := List.mem_map.mp hmem
      have hin : e' ∈ es := (mem_removeRec he').1
      exact h.1 (hq ▸ List.mem_map_of_mem Prod.fst hin)

theorem findRec_eq_of_mem_nodup {l : List (Ptr × InnerRepr)} {p : Ptr} {v : InnerRepr}
    (hnd : (l.map Prod.fst).Nodup) (hm : (p, v) ∈ l) : findRec l p = some v := by
  induction l with
  | nil => cases hm
  | cons e es ih =>
    rw [List.map_cons, List.nodup_cons] at hnd
    rw [findRec]
    rcases List.mem_cons.mp hm with hh | hh
    · rw [← hh]
      simp
    · have hne : e.1 ≠ p := by
        intro hcontra
        exact hnd.1 (hcontra ▸ List.mem_map_of_mem Prod.fst hh)
      rw [if_neg hne]
      exact ih hnd.2 hh

/-- Number of handles in `H` that point at `p` (the ghost share count). -/
def countPtr : List ArcStr → Ptr → Nat
  | [], _ => 0
  | h :: hs, p => (if h.ptr = p then 1 else 0) + countPtr hs p

/-- Remove one occurrence of a handle (the one being consumed by a drop). -/
def removeHandle : List ArcStr → ArcStr → List ArcStr
  | [], _ => []
  | h :: hs, x => if h = x then hs else h :: removeHandle hs x

theorem countPtr_pos_of_mem {H : List ArcStr} {h : ArcStr} (hm : h ∈ H) :
    0 < countPtr H h.ptr := by
  induction H with
  | nil => cases hm
  | cons h1 hs ih =>
    rw [countPtr]
    rcases List.mem_cons.mp hm with hh | hh
    · rw [← hh, if_pos rfl]
      omega
    · have := ih hh
      omega

theorem countPtr_eq_zero_of_forall {H : List ArcStr} {p : Ptr}
    (hall : ∀ h ∈ H, h.ptr ≠ p) : countPtr H p = 0 := by
  induction H with
  | nil => rfl
  | cons h1 hs ih =>
    rw [countPtr, if_neg (hall h1 (List.mem_cons_self _ _))]
    have := ih fun h hm => hall h (List.mem_cons_of_mem _ hm)
    omega

theorem ptr_ne_of_countPtr_zero {H : List ArcStr} {p : Ptr}
    (hz : countPtr H p = 0) {h : ArcStr} (hm : h ∈ H) : h.ptr ≠ p := by
  induction H with
  | nil => cases hm
  | cons h1 hs ih =>
    rw [countPtr] at hz
    rcases List.mem_cons.mp hm with hh | hh
    · subst hh
      intro hc
      rw [if_pos hc] at hz
      omega
    · exact ih (by omega) hh

theorem mem_removeHandle {H : List ArcStr} {x y : ArcStr}
    (hm : y ∈ removeHandle H x) : y ∈ H := by
  induction H with
  | nil => cases hm
  | cons h1 hs ih =>
    rw [removeHandle] at hm
    by_cases he : h1 = x
    · rw [if_pos he] at hm
      exact List.mem_cons_of_mem _ hm
    · rw [if_neg he] at hm
      rcases List.mem_cons.mp hm with hh | hh
      · exact hh ▸ List.mem_cons_self _ _
      · exact List.mem_cons_of_mem _ (ih hh)

theorem countPtr_removeHandle_ne {H : List ArcStr} {x : ArcStr} {p : Ptr}
    (hne : x.ptr ≠ p) : countPtr (removeHandle H x) p = countPtr H p := by
  induction H with
  | nil => rfl
  | cons h1 hs ih =>
    rw [removeHandle, countPtr]
    by_cases he : h1 = x
    · rw [if_pos he, he, if_neg hne]
      omega
    · rw [if_neg he, countPtr, ih]

theorem countPtr_removeHandle_self {H : List ArcStr} {x : ArcStr} (hm : x ∈ H) :
    countPtr (removeHandle H x) x.ptr = countPtr H x.ptr - 1 := by
  induction H with
  | nil => cases hm
  | cons h1 hs ih =>
    rw [removeHandle, countPtr]
    by_cases he : h1 = x
    · rw [if_pos he, he, if_pos rfl]
      omega
    · have hx : x ∈ hs := by
        rcases List.mem_cons.mp hm with hh | hh
        · exact absurd hh.symm he
        · exact hh
      have hpos := countPtr_pos_of_mem hx
      rw [if_neg he, countPtr, ih hx]
      by_cases hp : h1.ptr = x.ptr
      · rw [if_pos hp]
        omega
      · rw [if_neg hp]
        omega

theorem get_of_heap_wf {m : Mem} (hwf : MemWF m) {p : Ptr} {r : InnerRepr}
    (hh : findRec m.heap p = some r) : m.get p = some r := by
  have hmem := findRec_mem hh
  have hs := (hwf.2.2.2 (p, r) hmem).1
  rw [Mem.get, hs, hh]

theorem dynamic_in_heap {m : Mem} (hwf : MemWF m) {p : Ptr} {r : InnerRepr}
    (hget : m.get p = some r) (hdyn : r.len_flags.is_static = false) :
    findRec m.statics p = none ∧ findRec m.heap p = some r := by
  rw [Mem.get] at hget
  cases hs : findRec m.statics p with
  | some r' =>
    rw [hs] at hget
    obtain rfl : r' = r := Option.some.inj hget
    have := (hwf.2.1 _ (findRec_mem hs)).1
    rw [this] at hdyn
    cases hdyn
  | none =>
    rw [hs] at hget
    exact ⟨rfl, hget⟩

theorem static_in_statics {m : Mem} (hwf : MemWF m) {p : Ptr} {r : InnerRepr}
    (hget : m.get p = some r) (hst : r.len_flags.is_static = true) :
    findRec m.statics p = some r := by
  rw [Mem.get] at hget
  cases hs : findRec m.statics p with
  | some r' =>
    rw [hs] at hget
    obtain rfl : r' = r := Option.some.inj hget
    rfl
  | none =>
    rw [hs] at hget
    have := (hwf.2.2.2 _ (findRec_mem hget)).2.2.1
    rw [this] at hst
    cases hst

theorem handle_ptr_lt {m : Mem} (hwf : MemWF m) {q : Ptr}
    (hq : (m.get q).isSome = true) : q < m.next := by
  rw [Mem.get] at hq
  cases hs : findRec m.statics q with
  | some r => exact (hwf.2.1 _ (findRec_mem hs)).2
  | none =>
    rw [hs] at hq
    cases hh : findRec m.heap q with
    | some r => exact (hwf.2.2.2 _ (findRec_mem hh)).2.1
    | none => rw [hh] at hq; cases hq

theorem get_setStrong_ne (m : Mem) {p q : Ptr} (c : Nat) (hne : q ≠ p) :
    (m.setStrong p c).get q = m.get q := by
  rw [Mem.get, Mem.get, Mem.setStrong]
  cases findRec m.statics q with
  | some r => rfl
  | none => exact findRec_setCount_ne m.heap c hne

theorem get_setStrong_self {m : Mem} (hwf : MemWF m) {p : Ptr} {r : InnerRepr} (c : Nat)
    (hget : m.get p = some r) (hdyn : r.len_flags.is_static = false) :
    (m.setStrong p c).get p = some { r with strong := c } := by
  obtain ⟨hs, hh⟩ := dynamic_in_heap hwf hget hdyn
  rw [Mem.get, Mem.setStrong]
  simp only [hs]
  rw [findRec_setCount_self, hh, Option.map_some']

theorem get_free_ne (m : Mem) {p q : Ptr} (hne : q ≠ p) :
    (m.free p).get q = m.get q := by
  rw [Mem.get, Mem.get, Mem.free]
  cases findRec m.statics q with
  | some r => rfl
  | none => exact findRec_removeRec_ne m.heap hne

theorem get_alloc_ne (m : Mem) (r : InnerRepr) {q : Ptr} (hne : q ≠ m.next) :
    (m.alloc r).get q = m.get q := by
  rw [Mem.get, Mem.get, Mem.alloc]
  cases findRec m.statics q with
  | some r' => rfl
  | none =>
    simp only [findRec]
    rw [if_neg fun hh => hne hh.symm]

theorem memwf_setStrong {m : Mem} (hwf : MemWF m) {p : Ptr} {c : Nat}
    (hc1 : 1 ≤ c) (hc2 : c ≤ isizeMax + 1) : MemWF (m.setStrong p c) := by
  obtain ⟨h1, h2, h3, h4⟩ := hwf
  refine ⟨h1, h2, ?_, ?_⟩
  · rw [Mem.setStrong]
    simpa [keys_setCount] using h3
  · intro e he
    rw [Mem.setStrong] at he
    obtain ⟨e0, he0, hv⟩ := mem_setCount he
    have hprops := h4 e0 he0
    by_cases hk : e0.1 = p
    · rw [if_pos hk] at hv
      subst hv
      exact ⟨hprops.1, hprops.2.1, hprops.2.2.1, hc1, hc2⟩
    · rw [if_neg hk] at hv
      subst hv
      exact hprops

theorem memwf_free {m : Mem} (hwf : MemWF m) (p : Ptr) : MemWF (m.free p) := by
  obtain ⟨h1, h2, h3, h4⟩ := hwf
  refine ⟨h1, h2, ?_, ?_⟩
  · rw [Mem.free]
    exact keys_removeRec_nodup h3
  · intro e he
    rw [Mem.free] at he
    exact h4 e (mem_removeRec he).1

theorem memwf_alloc {m : Mem} (hwf : MemWF m) {s : List Nat}
    (hlen : s.length < isizeMax - (DATA_OFFSET + ALIGN)) :
    MemWF (m.alloc ⟨LenFlags.from_len_static_raw s.length false, 1, s⟩) := by
  have hlt : s.length < 2 ^ (WORD - 1) := by
    norm_num [isizeMax, DATA_OFFSET, ALIGN, WORD] at hlen ⊢
    omega
  obtain ⟨h1, h2, h3, h4⟩ := hwf
  refine ⟨h1, ?_, ?_, ?_⟩
  · intro e he
    exact ⟨(h2 e he).1, Nat.lt_succ_of_lt (h2 e he).2⟩
  · simp only [Mem.alloc, List.map_cons, List.nodup_cons]
    refine ⟨?_, h3⟩
    intro hmem
    obtain ⟨e', he', hq⟩ := List.mem_map.mp hmem
    have := (h4 e' he').2.1
    exact absurd (hq ▸ this) (lt_irrefl _)
  · intro e he
    rw [Mem.alloc] at he
    rcases List.mem_cons.mp he with hh | hh
    · subst hh
      refine ⟨findRec_none_of_lt fun e' he' => (h2 e' he').2, Nat.lt_succ_self _, ?_, ?_, ?_⟩
      · rw [from_len_static_raw_eq _ _ hlt]
        exact lenflags_decode_static s.length false
      · exact le_refl 1
      · norm_num [isizeMax, WORD]
    · have hprops := h4 e hh
      exact ⟨hprops.1, Nat.lt_succ_of_lt hprops.2.1, hprops.2.2⟩

/-- The (previous count `+ 2^WORD - 1`) wrap of `fetch_sub(1)` is an exact
decrement for any count a well-formed record can hold. -/
theorem wrap_sub_one {n : Nat} (h1 : 1 ≤ n) (h2 : n ≤ isizeMax + 1) :
    (n + (2 ^ WORD - 1)) % 2 ^ WORD = n - 1 := by
  rw [isizeMax] at h2
  rw [WORD] at h2 ⊢
  have hsplit : n + (2 ^ 64 - 1) = (n - 1) + 1 * 2 ^ 64 := by omega
  rw [hsplit, Nat.add_mul_mod_self_right]
  apply Nat.mod_eq_of_lt
  norm_num at h2 ⊢
  omega

/-- A system state: the memory plus the (ghost) list of live handles. -/
structure Sys where
  mem : Mem
  handles : List ArcStr
deriving DecidableEq, Repr

/-- An operation a user of the library can perform: construct a handle from
content, clone a live handle, or drop a live handle. -/
inductive Op where
  | construct (s : List Nat)
  | cloneOp (h : ArcStr)
  | dropOp (h : ArcStr)
deriving DecidableEq, Repr

/-- One operation of the system.  Clone and drop require a live handle (a
handle the caller actually holds); using anything else is undefined
behavior. -/
def step (σ : Sys) : Op → Outcome Sys × List Access
  | .construct s =>
    match ArcStr.fromStr s σ.mem with
    | .ok (h, m') => (.ok ⟨m', h :: σ.handles⟩, [])
    | .fatal m' => (.fatal m', [])
    | .ub => (.ub, [])
  | .cloneOp h =>
    if h ∈ σ.handles then
      match ArcStr.clone h σ.mem with
      | (.ok (h', m'), tr) => (.ok ⟨m', h' :: σ.handles⟩, tr)
      | (.fatal m', tr) => (.fatal m', tr)
      | (.ub, tr) => (.ub, tr)
    else (.ub, [])
  | .dropOp h =>
    if h ∈ σ.handles then
      match ArcStr.drop h σ.mem with
      | (.ok m', tr) => (.ok ⟨m', removeHandle σ.handles h⟩, tr)
      | (.fatal m', tr) => (.fatal m', tr)
      | (.ub, tr) => (.ub, tr)
    else (.ub, [])

/-- Run a sequence of operations, concatenating the access traces; a fatal
outcome terminates the process, so the run stops there. -/
def runSys (σ : Sys) : List Op → Sys × List Access
  | [] => (σ, [])
  | op :: ops =>
    match step σ op with
    | (.ok σ', tr) =>
      let rest := runSys σ' ops
      (rest.1, tr ++ rest.2)
    | (.fatal _, tr) => (σ, tr)
    | (.ub, tr) => (σ, tr)

/-- Well-formedness of a system state: the memory is well-formed, each heap
record's count equals the number of live handles pointing at it, and every
live handle points at a live record. -/
def SysWF (σ : Sys) : Prop :=
  MemWF σ.mem
  ∧ (∀ e ∈ σ.mem.heap, (e.2).strong = countPtr σ.handles e.1)
  ∧ (∀ h ∈ σ.handles, (Mem.get σ.mem h.ptr).isSome = true)

instance (σ : Sys) : Decidable (SysWF σ) := by
  unfold SysWF MemWF
  exact inferInstance

theorem syswf_cons_static {σ : Sys} (hwf : SysWF σ) {q : Ptr} {r : InnerRepr}
    (hst : findRec σ.mem.statics q = some r) :
    SysWF ⟨σ.mem, ⟨q⟩ :: σ.handles⟩ := by
  obtain ⟨hm, hcount, hvalid⟩ := hwf
  refine ⟨hm, ?_, ?_⟩
  · intro e he
    have hne : (⟨q⟩ : ArcStr).ptr ≠ e.1 := by
      intro hc
      have h0 : findRec σ.mem.statics e.1 = none := (hm.2.2.2 e he).1
      rw [← hc] at h0
      rw [h0] at hst
      cases hst
    rw [countPtr, if_neg hne]
    have := hcount e he
    omega
  · intro h2 hm2
    rcases List.mem_cons.mp hm2 with hh | hh
    · subst hh
      rw [Mem.get, hst]
      rfl
    · exact hvalid h2 hh

theorem step_construct_ok {σ : Sys} {s : List Nat} {σ' : Sys} {tr : List Access}
    (hwf : SysWF σ) (hstep : step σ (.construct s) = (.ok σ', tr)) :
    tr = []
    ∧ ((s = [] ∧ σ' = ⟨σ.mem, EMPTY :: σ.handles⟩)
       ∨ (s ≠ [] ∧ s.length < isizeMax - (DATA_OFFSET + ALIGN)
          ∧ σ' = ⟨σ.mem.alloc ⟨LenFlags.from_len_static_raw s.length false, 1, s⟩,
                  ⟨σ.mem.next⟩ :: σ.handles⟩))
    ∧ SysWF σ' := by
  simp only [step] at hstep
  by_cases hz : s.length = 0
  · have hs : s = [] := List.length_eq_zero.mp hz
    subst hs
    rw [ArcStr.fromStr] at hstep
    simp only [List.length_nil, if_pos rfl] at hstep
    obtain ⟨rfl, rfl⟩ : Sys.mk σ.mem (ArcStr.new :: σ.handles) = σ' ∧ [] = tr := by
      cases hstep
      exact ⟨rfl, rfl⟩
    refine ⟨rfl, Or.inl ⟨rfl, rfl⟩, ?_⟩
    exact syswf_cons_static hwf hwf.1.1
  · have hne : s ≠ [] := fun hh => hz (hh ▸ rfl)
    rw [ArcStr.fromStr, if_neg hz] at hstep
    by_cases hbig : s.length ≥ isizeMax - (DATA_OFFSET + ALIGN)
    · rw [allocate_eq_fatal σ.mem hbig] at hstep
      cases hstep
    · push_neg at hbig
      rw [allocate_eq_ok σ.mem hbig] at hstep
      obtain ⟨rfl, rfl⟩ :
          Sys.mk (σ.mem.alloc ⟨LenFlags.from_len_static_raw s.length false, 1, s⟩)
            ((⟨σ.mem.next⟩ : ArcStr) :: σ.handles) = σ' ∧ [] = tr := by
        cases hstep
        exact ⟨rfl, rfl⟩
      obtain ⟨hm, hcount, hvalid⟩ := hwf
      refine ⟨rfl, Or.inr ⟨hne, hbig, rfl⟩, memwf_alloc hm hbig, ?_, ?_⟩
      · intro e he
        simp only [Mem.alloc] at he
        rcases List.mem_cons.mp he with hh | hh
        · subst hh
          have hzero : countPtr σ.handles σ.mem.next = 0 := by
            refine countPtr_eq_zero_of_forall fun h3 hm2 => ?_
            exact Nat.ne_of_lt (handle_ptr_lt hm (hvalid h3 hm2))
          rw [countPtr, if_pos rfl, hzero]
        · have hlt := (hm.2.2.2 e hh).2.1
          rw [countPtr, if_neg (show ¬ (ArcStr.mk σ.mem.next).ptr = e.1 from
            fun hc => Nat.ne_of_lt hlt hc.symm)]
          have := hcount e hh
          omega
      · intro h2 hm2
        rcases List.mem_cons.mp hm2 with hh | hh
        · subst hh
          rw [get_fresh hm]
          rfl
        · have hlt := handle_ptr_lt hm (hvalid h2 hh)
          rw [get_alloc_ne σ.mem ⟨LenFlags.from_len_static_raw s.length false, 1, s⟩
            (Nat.ne_of_lt hlt)]
          exact hvalid h2 hh

theorem step_clone_ok {σ : Sys} {h : ArcStr} {σ' : Sys} {tr : List Access}
    (hwf : SysWF σ) (hstep : step σ (.cloneOp h) = (.ok σ', tr)) :
    h ∈ σ.handles
    ∧ (∃ r, σ.mem.get h.ptr = some r
        ∧ ((r.len_flags.is_static = true
              ∧ σ' = ⟨σ.mem, ⟨h.ptr⟩ :: σ.handles⟩ ∧ tr = [])
           ∨ (r.len_flags.is_static = false ∧ r.strong ≤ isizeMax
              ∧ σ' = ⟨σ.mem.setStrong h.ptr (r.strong + 1), ⟨h.ptr⟩ :: σ.handles⟩
              ∧ tr = [.countRead h.ptr, .countWrite h.ptr])))
    ∧ SysWF σ' := by
  simp only [step] at hstep
  by_cases hmem : h ∈ σ.handles
  swap
  · rw [if_neg hmem] at hstep
    cases hstep
  rw [if_pos hmem] at hstep
  cases hget : σ.mem.get h.ptr with
  | none =>
    simp only [ArcStr.clone, hget] at hstep
    cases hstep
  | some r =>
    by_cases hs : r.len_flags.is_static = true
    · simp only [ArcStr.clone, hget, hs, ite_true] at hstep
      simp only [Prod.mk.injEq, Outcome.ok.injEq] at hstep
      obtain ⟨rfl, rfl⟩ := hstep
      exact ⟨hmem, ⟨r, rfl, Or.inl ⟨hs, rfl, rfl⟩⟩,
        syswf_cons_static hwf (static_in_statics hwf.1 hget hs)⟩
    · have hs' : r.len_flags.is_static = false := by
        revert hs
        cases r.len_flags.is_static <;> simp
      simp only [ArcStr.clone, hget, hs', Bool.false_eq_true, ite_false] at hstep
      by_cases hover : r.strong > isizeMax
      · rw [if_pos hover] at hstep
        cases hstep
      · rw [if_neg hover] at hstep
        have hle : r.strong ≤ isizeMax := Nat.le_of_not_lt hover
        have hmod : (r.strong + 1) % 2 ^ WORD = r.strong + 1 := by
          rw [isizeMax] at hle
          rw [WORD] at hle ⊢
          apply Nat.mod_eq_of_lt
          norm_num at hle ⊢
          omega
        rw [hmod] at hstep
        simp only [Prod.mk.injEq, Outcome.ok.injEq] at hstep
        obtain ⟨rfl, rfl⟩ := hstep
        obtain ⟨hm, hcount, hvalid⟩ := hwf
        have hdyn := dynamic_in_heap hm hget hs'
        have hmemrec : (h.ptr, r) ∈ σ.mem.heap := findRec_mem hdyn.2
        have hcnt : r.strong = countPtr σ.handles h.ptr := hcount _ hmemrec
        refine ⟨hmem, ⟨r, rfl, Or.inr ⟨hs', hle, rfl, rfl⟩⟩,
          memwf_setStrong hm (Nat.succ_le_succ (Nat.zero_le _)) (Nat.succ_le_succ hle),
          ?_, ?_⟩
        · intro e he
          simp only [Mem.setStrong] at he
          obtain ⟨e0, he0, hv⟩ := mem_setCount he
          by_cases hk : e0.1 = h.ptr
          · have hpm : (h.ptr, e0.2) ∈ σ.mem.heap := by
              rw [← hk]
              simpa using he0
            have hsome : some e0.2 = some r := by
              rw [← findRec_eq_of_mem_nodup hm.2.2.1 hpm, hdyn.2]
            have he0r : e0.2 = r := Option.some.inj hsome
            rw [if_pos hk, hk, he0r] at hv
            subst hv
            show r.strong + 1 = countPtr ((⟨h.ptr⟩ : ArcStr) :: σ.handles) h.ptr
            rw [countPtr, if_pos rfl, ← hcnt]
            omega
          · rw [if_neg hk] at hv
            rw [hv]
            rw [countPtr, if_neg (show ¬ (ArcStr.mk h.ptr).ptr = e0.1 from
              fun hc => hk (id hc.symm))]
            have := hcount e0 he0
            omega
        · intro h2 hm2
          rcases List.mem_cons.mp hm2 with hh | hh
          · subst hh
            rw [show (ArcStr.mk h.ptr).ptr = h.ptr from rfl,
              get_setStrong_self hm (r.strong + 1) hget hs']
            rfl
          · by_cases hp : h2.ptr = h.ptr
            · rw [hp, get_setStrong_self hm (r.strong + 1) hget hs']
              rfl
            · rw [get_setStrong_ne σ.mem (r.strong + 1) hp]
              exact hvalid h2 hh

theorem step_drop_ok {σ : Sys} {h : ArcStr} {σ' : Sys} {tr : List Access}
    (hwf : SysWF σ) (hstep : step σ (.dropOp h) = (.ok σ', tr)) :
    h ∈ σ.handles
    ∧ (∃ r, σ.mem.get h.ptr = some r
        ∧ ((r.len_flags.is_static = true
              ∧ σ' = ⟨σ.mem, removeHandle σ.handles h⟩ ∧ tr = [])
           ∨ (r.len_flags.is_static = false ∧ r.strong = 1
              ∧ σ' = ⟨σ.mem.free h.ptr, removeHandle σ.handles h⟩
              ∧ tr = [.countRead h.ptr, .countWrite h.ptr, .countRead h.ptr,
                      .dealloc h.ptr])
           ∨ (r.len_flags.is_static = false ∧ 2 ≤ r.strong
              ∧ σ' = ⟨σ.mem.setStrong h.ptr (r.strong - 1), removeHandle σ.handles h⟩
              ∧ tr = [.countRead h.ptr, .countWrite h.ptr])))
    ∧ SysWF σ' := by
  simp only [step] at hstep
  by_cases hmem : h ∈ σ.handles
  swap
  · rw [if_neg hmem] at hstep
    cases hstep
  rw [if_pos hmem] at hstep
  cases hget : σ.mem.get h.ptr with
  | none =>
    simp only [ArcStr.drop, hget] at hstep
    cases hstep
  | some r =>
    by_cases hs : r.len_flags.is_static = true
    · simp only [ArcStr.drop, hget, hs, ite_true] at hstep
      simp only [Prod.mk.injEq, Outcome.ok.injEq] at hstep
      obtain ⟨rfl, rfl⟩ := hstep
      obtain ⟨hm, hcount, hvalid⟩ := hwf
      have hstat := static_in_statics hm hget hs
      refine ⟨hmem, ⟨r, rfl, Or.inl ⟨hs, rfl, rfl⟩⟩, hm, ?_, ?_⟩
      · intro e he
        have hne : h.ptr ≠ e.1 := by
          intro hc
          have h0 := (hm.2.2.2 e he).1
          rw [← hc, hstat] at h0
          cases h0
        rw [countPtr_removeHandle_ne hne]
        exact hcount e he
      · intro h2 hm2
        exact hvalid h2 (mem_removeHandle hm2)
    · have hs' : r.len_flags.is_static = false := by
        revert hs
        cases r.len_flags.is_static <;> simp
      obtain ⟨hm, hcount, hvalid⟩ := hwf
      have hdyn := dynamic_in_heap hm hget hs'
      have hmemrec : (h.ptr, r) ∈ σ.mem.heap := findRec_mem hdyn.2
      have hcnt : r.strong = countPtr σ.handles h.ptr := hcount _ hmemrec
      have hbounds := hm.2.2.2 _ hmemrec
      have hge1 : 1 ≤ r.strong := hbounds.2.2.2.1
      have hle2 : r.strong ≤ isizeMax + 1 := hbounds.2.2.2.2
      by_cases hone : r.strong = 1
      · simp only [ArcStr.drop, hget, hs', Bool.false_eq_true, ite_false] at hstep
        rw [if_pos hone] at hstep
        simp only [Prod.mk.injEq, Outcome.ok.injEq] at hstep
        obtain ⟨rfl, rfl⟩ := hstep
        refine ⟨hmem, ⟨r, rfl, Or.inr (Or.inl ⟨hs', hone, rfl, rfl⟩)⟩,
          memwf_free hm h.ptr, ?_, ?_⟩
        · intro e he
          simp only [Mem.free] at he
          obtain ⟨hin, hne⟩ := mem_removeRec he
          rw [countPtr_removeHandle_ne (fun hc => hne hc.symm)]
          exact hcount e hin
        · intro h2 hm2
          have hh2 := mem_removeHandle hm2
          have hzero : countPtr (removeHandle σ.handles h) h.ptr = 0 := by
            rw [countPtr_removeHandle_self hmem, ← hcnt, hone]
          have hne2 : h2.ptr ≠ h.ptr := ptr_ne_of_countPtr_zero hzero hm2
          rw [get_free_ne σ.mem hne2]
          exact hvalid h2 hh2
      · have h2le : 2 ≤ r.strong := by omega
        simp only [ArcStr.drop, hget, hs', Bool.false_eq_true, ite_false] at hstep
        rw [if_neg hone] at hstep
        rw [wrap_sub_one hge1 hle2] at hstep
        simp only [Prod.mk.injEq, Outcome.ok.injEq] at hstep
        obtain ⟨rfl, rfl⟩ := hstep
        refine ⟨hmem, ⟨r, rfl, Or.inr (Or.inr ⟨hs', h2le, rfl, rfl⟩)⟩,
          memwf_setStrong hm (by omega) (by omega), ?_, ?_⟩
        · intro e he
          simp only [Mem.setStrong] at he
          obtain ⟨e0, he0, hv⟩ := mem_setCount he
          by_cases hk : e0.1 = h.ptr
          · have hpm : (h.ptr, e0.2) ∈ σ.mem.heap := by
              rw [← hk]
              simpa using he0
            have hsome : some e0.2 = some r := by
              rw [← findRec_eq_of_mem_nodup hm.2.2.1 hpm, hdyn.2]
            have he0r : e0.2 = r := Option.some.inj hsome
            rw [if_pos hk, hk, he0r] at hv
            subst hv
            show r.strong - 1 = countPtr (removeHandle σ.handles h) h.ptr
            rw [countPtr_removeHandle_self hmem, ← hcnt]
          · rw [if_neg hk] at hv
            rw [hv]
            rw [countPtr_removeHandle_ne (fun hc => hk (id hc.symm))]
            exact hcount e0 he0
        · intro h2 hm2
          have hh2 := mem_removeHandle hm2
          by_cases hp : h2.ptr = h.ptr
          · rw [hp, get_setStrong_self hm (r.strong - 1) hget hs']
            rfl
          · rw [get_setStrong_ne σ.mem (r.strong - 1) hp]
            exact hvalid h2 hh2

/-- Number of deallocations of `p` recorded in a trace. -/
def countDealloc (p : Ptr) : List Access → Nat
  | [] => 0
  | a :: rest => (if a = Access.dealloc p then 1 else 0) + countDealloc p rest

theorem countDealloc_append (p : Ptr) (a b : List Access) :
    countDealloc p (a ++ b) = countDealloc p a + countDealloc p b := by
  induction a with
  | nil => simp [countDealloc]
  | cons x xs ih =>
    show (if x = Access.dealloc p then 1 else 0) + countDealloc p (xs ++ b)
      = ((if x = Access.dealloc p then 1 else 0) + countDealloc p xs) + countDealloc p b
    rw [ih]
    omega

theorem countDealloc_eq_zero_of_not_mem {p : Ptr} {l : List Access}
    (h : Access.dealloc p ∉ l) : countDealloc p l = 0 := by
  induction l with
  | nil => rfl
  | cons x xs ih =>
    rw [countDealloc, if_neg (fun hc => h (by rw [← hc]; exact List.mem_cons_self _ _))]
    have := ih fun hc => h (List.mem_cons_of_mem _ hc)
    omega

theorem findRec_cons (q : Ptr) (v : InnerRepr) (l : List (Ptr × InnerRepr)) (p : Ptr) :
    findRec ((q, v) :: l) p = if q = p then some v else findRec l p := rfl

theorem clone_trace_cases (h : ArcStr) (m : Mem) :
    (ArcStr.clone h m).2 = []
    ∨ (ArcStr.clone h m).2 = [.countRead h.ptr, .countWrite h.ptr] := by
  cases hg : m.get h.ptr with
  | none => simp [ArcStr.clone, hg]
  | some r =>
    by_cases hs : r.len_flags.is_static = true
    · simp [ArcStr.clone, hg, hs]
    · have hs' : r.len_flags.is_static = false := by
        revert hs
        cases r.len_flags.is_static <;> simp
      by_cases hover : r.strong > isizeMax
      · simp [ArcStr.clone, hg, hs', hover]
      · simp [ArcStr.clone, hg, hs', hover]

theorem dealloc_not_mem_clone_trace (h : ArcStr) (m : Mem) (p : Ptr) :
    Access.dealloc p ∉ (ArcStr.clone h m).2 := by
  rcases clone_trace_cases h m with hc | hc <;> rw [hc] <;> simp

theorem drop_not_ok_trace {h : ArcStr} {m : Mem} {o : Outcome Mem} {t : List Access}
    (hd : ArcStr.drop h m = (o, t)) (hnok : ∀ m2, o ≠ .ok m2) : t = [] := by
  cases hg : m.get h.ptr with
  | none =>
    simp only [ArcStr.drop, hg] at hd
    cases hd
    rfl
  | some r =>
    by_cases hs : r.len_flags.is_static = true
    · simp only [ArcStr.drop, hg, hs, ite_true] at hd
      cases hd
      exact absurd rfl (hnok _)
    · have hs' : r.len_flags.is_static = false := by
        revert hs
        cases r.len_flags.is_static <;> simp
      simp only [ArcStr.drop, hg, hs', Bool.false_eq_true, ite_false] at hd
      by_cases hone : r.strong = 1
      · rw [if_pos hone] at hd
        cases hd
        exact absurd rfl (hnok _)
      · rw [if_neg hone] at hd
        cases hd
        exact absurd rfl (hnok _)

theorem step_fail_no_dealloc {σ : Sys} {op : Op} {out : Outcome Sys} {tr : List Access}
    {p : Ptr} (hstep : step σ op = (out, tr)) (hnok : ∀ σ2, out ≠ Outcome.ok σ2) :
    Access.dealloc p ∉ tr := by
  cases op with
  | construct s =>
    simp only [step] at hstep
    cases hres : ArcStr.fromStr s σ.mem with
    | ok val =>
      obtain ⟨h2, m2⟩ := val
      rw [hres] at hstep
      cases hstep
      exact absurd rfl (hnok _)
    | fatal mf =>
      rw [hres] at hstep
      cases hstep
      simp
    | ub =>
      rw [hres] at hstep
      cases hstep
      simp
  | cloneOp h =>
    simp only [step] at hstep
    by_cases hmem : h ∈ σ.handles
    · rw [if_pos hmem] at hstep
      rcases hclone : ArcStr.clone h σ.mem with ⟨o, t⟩
      have hnd : Access.dealloc p ∉ t := by
        have hq := dealloc_not_mem_clone_trace h σ.mem p
        rw [hclone] at hq
        exact hq
      rw [hclone] at hstep
      cases o with
      | ok val =>
        obtain ⟨h', m'⟩ := val
        cases hstep
        exact absurd rfl (hnok _)
      | fatal mf =>
        cases hstep
        exact hnd
      | ub =>
        cases hstep
        exact hnd
    · rw [if_neg hmem] at hstep
      cases hstep
      simp
  | dropOp h =>
    simp only [step] at hstep
    by_cases hmem : h ∈ σ.handles
    · rw [if_pos hmem] at hstep
      rcases hdrop : ArcStr.drop h σ.mem with ⟨o, t⟩
      rw [hdrop] at hstep
      cases o with
      | ok m2 =>
        cases hstep
        exact absurd rfl (hnok _)
      | fatal mf =>
        cases hstep
        rw [drop_not_ok_trace hdrop (fun m2 hc => Outcome.noConfusion hc)]
        simp
      | ub =>
        cases hstep
        rw [drop_not_ok_trace hdrop (fun m2 hc => Outcome.noConfusion hc)]
        simp
    · rw [if_neg hmem] at hstep
      cases hstep
      simp

theorem wf_step {σ : Sys} {op : Op} {σ' : Sys} {tr : List Access}
    (hwf : SysWF σ) (hstep : step σ op = (.ok σ', tr)) : SysWF σ' := by
  cases op with
  | construct s => exact (step_construct_ok hwf hstep).2.2
  | cloneOp h => exact (step_clone_ok hwf hstep).2.2
  | dropOp h => exact (step_drop_ok hwf hstep).2.2

theorem step_dealloc_kills {σ : Sys} {op : Op} {σ' : Sys} {tr : List Access} {p : Ptr}
    (hwf : SysWF σ) (hstep : step σ op = (.ok σ', tr)) (hdp : Access.dealloc p ∈ tr) :
    findRec σ'.mem.heap p = none ∧ p < σ'.mem.next ∧ countDealloc p tr = 1 := by
  cases op with
  | construct s =>
    obtain ⟨rfl, _, _⟩ := step_construct_ok hwf hstep
    cases hdp
  | cloneOp h =>
    obtain ⟨_, ⟨r, hget, hcase⟩, _⟩ := step_clone_ok hwf hstep
    rcases hcase with ⟨_, _, rfl⟩ | ⟨_, _, _, rfl⟩
    · cases hdp
    · simp at hdp
  | dropOp h =>
    obtain ⟨hmem, ⟨r, hget, hcase⟩, hwf'⟩ := step_drop_ok hwf hstep
    rcases hcase with ⟨_, rfl, rfl⟩ | ⟨hs', hone, rfl, rfl⟩ | ⟨_, _, rfl, rfl⟩
    · cases hdp
    · have hp : p = h.ptr := by
        simp [List.mem_cons] at hdp
        exact hdp
      subst hp
      have hdyn := dynamic_in_heap hwf.1 hget hs'
      refine ⟨?_, ?_, ?_⟩
      · show findRec (removeRec σ.mem.heap h.ptr) h.ptr = none
        exact findRec_removeRec_self _ _
      · show h.ptr < σ.mem.next
        exact (hwf.1.2.2.2 _ (findRec_mem hdyn.2)).2.1
      · show countDealloc h.ptr
          [.countRead h.ptr, .countWrite h.ptr, .countRead h.ptr, .dealloc h.ptr] = 1
        rw [countDealloc, if_neg (by simp), countDealloc, if_neg (by simp),
          countDealloc, if_neg (by simp), countDealloc, if_pos rfl, countDealloc]
    · simp at hdp

theorem step_preserves_dead {σ : Sys} {op : Op} {σ' : Sys} {tr : List Access} {p : Ptr}
    (hwf : SysWF σ) (hstep : step σ op = (.ok σ', tr))
    (hdead : findRec σ.mem.heap p = none) (hlt : p < σ.mem.next) :
    findRec σ'.mem.heap p = none ∧ p < σ'.mem.next ∧ Access.dealloc p ∉ tr := by
  cases op with
  | construct s =>
    obtain ⟨rfl, hcase, _⟩ := step_construct_ok hwf hstep
    rcases hcase with ⟨_, rfl⟩ | ⟨_, _, rfl⟩
    · exact ⟨hdead, hlt, by simp⟩
    · refine ⟨?_, ?_, by simp⟩
      · show findRec ((σ.mem.next,
            ⟨LenFlags.from_len_static_raw s.length false, 1, s⟩) :: σ.mem.heap) p = none
        rw [findRec_cons, if_neg (Nat.ne_of_gt hlt)]
        exact hdead
      · show p < σ.mem.next + 1
        exact Nat.lt_succ_of_lt hlt
  | cloneOp h =>
    obtain ⟨_, ⟨r, hget, hcase⟩, _⟩ := step_clone_ok hwf hstep
    rcases hcase with ⟨_, rfl, rfl⟩ | ⟨_, _, rfl, rfl⟩
    · exact ⟨hdead, hlt, by simp⟩
    · refine ⟨?_, hlt, by simp⟩
      show findRec (setCount σ.mem.heap h.ptr (r.strong + 1)) p = none
      by_cases hp : p = h.ptr
      · subst hp
        rw [findRec_setCount_self, hdead]
        rfl
      · rw [findRec_setCount_ne _ _ hp]
        exact hdead
  | dropOp h =>
    obtain ⟨_, ⟨r, hget, hcase⟩, _⟩ := step_drop_ok hwf hstep
    rcases hcase with ⟨_, rfl, rfl⟩ | ⟨hs', _, rfl, rfl⟩ | ⟨_, _, rfl, rfl⟩
    · exact ⟨hdead, hlt, by simp⟩
    · have hdyn := dynamic_in_heap hwf.1 hget hs'
      have hne : p ≠ h.ptr := by
        intro hc
        rw [hc, hdyn.2] at hdead
        cases hdead
      refine ⟨?_, hlt, ?_⟩
      · show findRec (removeRec σ.mem.heap h.ptr) p = none
        rw [findRec_removeRec_ne _ hne]
        exact hdead
      · simp [hne]
    · refine ⟨?_, hlt, by simp⟩
      show findRec (setCount σ.mem.heap h.ptr (r.strong - 1)) p = none
      by_cases hp : p = h.ptr
      · subst hp
        rw [findRec_setCount_self, hdead]
        rfl
      · rw [findRec_setCount_ne _ _ hp]
        exact hdead

theorem run_dead_no_dealloc (ops : List Op) : ∀ (σ : Sys) (p : Ptr), SysWF σ →
    findRec σ.mem.heap p = none → p < σ.mem.next →
    countDealloc p (runSys σ ops).2 = 0 := by
  induction ops with
  | nil =>
    intro σ p _ _ _
    rfl
  | cons op ops ih =>
    intro σ p hwf hdead hlt
    rcases hs : step σ op with ⟨o, tr⟩
    cases o with
    | ok σ' =>
      have hprops := step_preserves_dead hwf hs hdead hlt
      have hwf' : SysWF σ' := wf_step hwf hs
      simp only [runSys, hs]
      rw [countDealloc_append,
        countDealloc_eq_zero_of_not_mem hprops.2.2,
        ih σ' p hwf' hprops.1 hprops.2.1]
    | fatal mf =>
      simp only [runSys, hs]
      exact countDealloc_eq_zero_of_not_mem
        (step_fail_no_dealloc hs fun σ2 hc => Outcome.noConfusion hc)
    | ub =>
      simp only [runSys, hs]
      exact countDealloc_eq_zero_of_not_mem
        (step_fail_no_dealloc hs fun σ2 hc => Outcome.noConfusion hc)

theorem run_dealloc_at_most_once (ops : List Op) : ∀ (σ : Sys) (p : Ptr), SysWF σ →
    countDealloc p (runSys σ ops).2 ≤ 1 := by
  induction ops with
  | nil =>
    intro σ p _
    exact Nat.zero_le 1
  | cons op ops ih =>
    intro σ p hwf
    rcases hs : step σ op with ⟨o, tr⟩
    cases o with
    | ok σ' =>
      have hwf' : SysWF σ' := wf_step hwf hs
      simp only [runSys, hs]
      rw [countDealloc_append]
      by_cases hdp : Access.dealloc p ∈ tr
      · have hkill := step_dealloc_kills hwf hs hdp
        have hzero := run_dead_no_dealloc ops σ' p hwf' hkill.1 hkill.2.1
        rw [hkill.2.2, hzero]
      · rw [countDealloc_eq_zero_of_not_mem hdp]
        have := ih σ' p hwf'
        omega
    | fatal mf =>
      simp only [runSys, hs]
      rw [countDealloc_eq_zero_of_not_mem
        (step_fail_no_dealloc hs fun σ2 hc => Outcome.noConfusion hc)]
      omega
    | ub =>
      simp only [runSys, hs]
      rw [countDealloc_eq_zero_of_not_mem
        (step_fail_no_dealloc hs fun σ2 hc => Outcome.noConfusion hc)]
      omega

/-- C2: the dynamic reference-count state machine, over every legal sequence
of operations from a well-formed state.  Construction of a non-empty handle
creates a record with count 1; cloning a dynamic handle increments its
record's count by exactly one and touches no other record; dropping while the
count exceeds one decrements it by exactly one, leaving the record's content
and every other record untouched; the record is deallocated exactly at the
1-to-0 transition — a step's trace contains a deallocation of `p` iff that
step drops the last share of the dynamic record at `p` — and any run from a
well-formed state deallocates each address at most once.  Well-formedness —
which includes that every live record's count equals the number of handles
referencing it, hence is at least 1 while any handle remains — is preserved
by every step. -/
theorem refcount_protocol :
    (∀ (σ : Sys) (s : List Nat) (σ' : Sys) (tr : List Access),
        SysWF σ → step σ (.construct s) = (.ok σ', tr) → s ≠ [] →
        ∃ r, findRec σ'.mem.heap σ.mem.next = some r ∧ r.strong = 1 ∧ r.data = s
          ∧ σ'.handles = ⟨σ.mem.next⟩ :: σ.handles)
    ∧ (∀ (σ : Sys) (h : ArcStr) (σ' : Sys) (tr : List Access) (r : InnerRepr),
        SysWF σ → step σ (.cloneOp h) = (.ok σ', tr) →
        σ.mem.get h.ptr = some r → r.len_flags.is_static = false →
        σ'.mem.get h.ptr = some { r with strong := r.strong + 1 }
        ∧ (∀ q, q ≠ h.ptr → σ'.mem.get q = σ.mem.get q))
    ∧ (∀ (σ : Sys) (h : ArcStr) (σ' : Sys) (tr : List Access) (r : InnerRepr),
        SysWF σ → step σ (.dropOp h) = (.ok σ', tr) →
        σ.mem.get h.ptr = some r → r.len_flags.is_static = false →
        ((2 ≤ r.strong →
            σ'.mem.get h.ptr = some { r with strong := r.strong - 1 }
            ∧ (∀ q, q ≠ h.ptr → σ'.mem.get q = σ.mem.get q)
            ∧ Access.dealloc h.ptr ∉ tr)
         ∧ (r.strong = 1 →
            findRec σ'.mem.heap h.ptr = none
            ∧ (∀ q, q ≠ h.ptr → σ'.mem.get q = σ.mem.get q)
            ∧ countDealloc h.ptr tr = 1)))
    ∧ (∀ (σ : Sys) (op : Op) (σ' : Sys) (tr : List Access) (p : Ptr),
        SysWF σ → step σ op = (.ok σ', tr) →
        SysWF σ'
        ∧ (Access.dealloc p ∈ tr ↔
            ∃ h2 r, op = .dropOp h2 ∧ h2.ptr = p ∧ σ.mem.get p = some r
              ∧ r.len_flags.is_static = false ∧ r.strong = 1))
    ∧ (∀ (ops : List Op) (σ : Sys) (p : Ptr), SysWF σ →
        countDealloc p (runSys σ ops).2 ≤ 1) := by
  refine ⟨?_, ?_, ?_, ?_, fun ops σ p hwf => run_dealloc_at_most_once ops σ p hwf⟩
  · intro σ s σ' tr hwf hstep hne
    obtain ⟨_, hcase, _⟩ := step_construct_ok hwf hstep
    rcases hcase with ⟨hnil, _⟩ | ⟨_, _, rfl⟩
    · exact absurd hnil hne
    · refine ⟨⟨LenFlags.from_len_static_raw s.length false, 1, s⟩, ?_, rfl, rfl, rfl⟩
      show findRec ((σ.mem.next,
          (⟨LenFlags.from_len_static_raw s.length false, 1, s⟩ : InnerRepr))
          :: σ.mem.heap) σ.mem.next = some _
      rw [findRec_cons, if_pos rfl]
  · intro σ h σ' tr r hwf hstep hget hdyn
    obtain ⟨_, ⟨r', hget', hcase⟩, _⟩ := step_clone_ok hwf hstep
    rw [hget] at hget'
    rw [show r' = r from (Option.some.inj hget').symm] at hcase
    rcases hcase with ⟨hst, _, _⟩ | ⟨_, _, rfl, rfl⟩
    · rw [hdyn] at hst
      cases hst
    · constructor
      · exact get_setStrong_self hwf.1 (r.strong + 1) hget hdyn
      · intro q hq
        exact get_setStrong_ne σ.mem (r.strong + 1) hq
  · intro σ h σ' tr r hwf hstep hget hdyn
    obtain ⟨hmem, ⟨r', hget', hcase⟩, _⟩ := step_drop_ok hwf hstep
    rw [hget] at hget'
    rw [show r' = r from (Option.some.inj hget').symm] at hcase
    constructor
    · intro h2le
      rcases hcase with ⟨hst, _, _⟩ | ⟨_, hone, _, _⟩ | ⟨_, _, rfl, rfl⟩
      · rw [hdyn] at hst
        cases hst
      · omega
      · refine ⟨get_setStrong_self hwf.1 (r.strong - 1) hget hdyn,
          fun q hq => get_setStrong_ne σ.mem (r.strong - 1) hq, by simp⟩
    · intro hone
      rcases hcase with ⟨hst, _, _⟩ | ⟨_, _, rfl, rfl⟩ | ⟨_, h2le, _, _⟩
      · rw [hdyn] at hst
        cases hst
      · refine ⟨?_, fun q hq => get_free_ne σ.mem hq, ?_⟩
        · show findRec (removeRec σ.mem.heap h.ptr) h.ptr = none
          exact findRec_removeRec_self _ _
        · show countDealloc h.ptr
            [.countRead h.ptr, .countWrite h.ptr, .countRead h.ptr, .dealloc h.ptr] = 1
          rw [countDealloc, if_neg (by simp), countDealloc, if_neg (by simp),
            countDealloc, if_neg (by simp), countDealloc, if_pos rfl, countDealloc]
      · omega
  · intro σ op σ' tr p hwf hstep
    refine ⟨wf_step hwf hstep, ?_, ?_⟩
    · intro hdp
      cases op with
      | construct s =>
        obtain ⟨rfl, _, _⟩ := step_construct_ok hwf hstep
        cases hdp
      | cloneOp h =>
        obtain ⟨_, ⟨r2, _, hcase⟩, _⟩ := step_clone_ok hwf hstep
        rcases hcase with ⟨_, _, rfl⟩ | ⟨_, _, _, rfl⟩
        · cases hdp
        · simp at hdp
      | dropOp h =>
        obtain ⟨_, ⟨r2, hget2, hcase⟩, _⟩ := step_drop_ok hwf hstep
        rcases hcase with ⟨_, _, rfl⟩ | ⟨hs2, hone2, _, rfl⟩ | ⟨_, _, _, rfl⟩
        · cases hdp
        · have hp : p = h.ptr := by
            simp [List.mem_cons] at hdp
            exact hdp
          subst hp
          exact ⟨h, r2, rfl, rfl, hget2, hs2, hone2⟩
        · simp at hdp
    · rintro ⟨h2, r, rfl, hp, hget2, hdyn2, hone2⟩
      obtain ⟨_, ⟨r', hget', hcase⟩, _⟩ := step_drop_ok hwf hstep
      rw [hp, hget2] at hget'
      rw [show r' = r from (Option.some.inj hget').symm] at hcase
      rcases hcase with ⟨hst, _, _⟩ | ⟨_, _, _, rfl⟩ | ⟨_, h2le, _, _⟩
      · rw [hdyn2] at hst
        cases hst
      · rw [← hp]
        simp
      · omega

/-- A concrete well-formed system: one dynamic record (content "a"), one
live handle, count 1. -/
def sysW : Sys :=
  ⟨⟨[(emptyPtr, EMPTY_INNER)],
    [(1, ⟨LenFlags.from_len_static_raw 1 false, 1, [97]⟩)], 2, 1⟩,
   [⟨1⟩]⟩

/-- `sysW` after one clone: count 2, two live handles. -/
def sysW2 : Sys :=
  ⟨⟨[(emptyPtr, EMPTY_INNER)],
    [(1, ⟨LenFlags.from_len_static_raw 1 false, 2, [97]⟩)], 2, 1⟩,
   [⟨1⟩, ⟨1⟩]⟩

/-- Witness for C2: in the concrete system `sysW`, a clone takes the count
from 1 to 2, and the run clone-drop-drop deallocates the record at most
once; via `refcount_protocol`. -/
theorem refcount_protocol_witness :
    SysWF sysW
    ∧ sysW2.mem.get 1 = some ⟨LenFlags.from_len_static_raw 1 false, 2, [97]⟩
    ∧ countDealloc 1 (runSys sysW [Op.cloneOp ⟨1⟩, Op.dropOp ⟨1⟩, Op.dropOp ⟨1⟩]).2 ≤ 1 := by
  refine ⟨by decide, ?_, ?_⟩
  · exact (refcount_protocol.2.1 sysW ⟨1⟩ sysW2 [.countRead 1, .countWrite 1]
      ⟨LenFlags.from_len_static_raw 1 false, 1, [97]⟩
      (by decide) (by decide) (by decide) (by decide)).1
  · exact refcount_protocol.2.2.2.2
      [Op.cloneOp ⟨1⟩, Op.dropOp ⟨1⟩, Op.dropOp ⟨1⟩] sysW 1 (by decide)

/-- C4: static invariance.  For a handle whose record is static: clone
returns the same pointer and drop returns, both with the memory unchanged
and an empty access trace — the count-field bytes are never read or written
and the record is never deallocated; `strong_count` is `None`; and under any
number of clones and drops of the handle the memory — hence the handle's
content, its static-ness, and its absent count — never changes and the total
access trace stays empty. -/
theorem static_invariance :
    ∀ (m : Mem) (H : List ArcStr) (h : ArcStr) (r : InnerRepr),
      Mem.get m h.ptr = some r → r.len_flags.is_static = true →
      ArcStr.clone h m = (.ok (⟨h.ptr⟩, m), [])
      ∧ ArcStr.drop h m = (.ok m, [])
      ∧ ArcStr.strong_count h m = some none
      ∧ ArcStr.is_static h m = some true
      ∧ (∀ ops : List Op, (∀ op ∈ ops, op = Op.cloneOp h ∨ op = Op.dropOp h) →
          (runSys ⟨m, H⟩ ops).1.mem = m ∧ (runSys ⟨m, H⟩ ops).2 = []
          ∧ ArcStr.as_bytes h (runSys ⟨m, H⟩ ops).1.mem = ArcStr.as_bytes h m
          ∧ ArcStr.strong_count h (runSys ⟨m, H⟩ ops).1.mem = some none
          ∧ ArcStr.is_static h (runSys ⟨m, H⟩ ops).1.mem = some true) := by
  intro m H h r hget hst
  have hclone : ArcStr.clone h m = (.ok (⟨h.ptr⟩, m), []) := by
    simp only [ArcStr.clone, hget, hst, ite_true]
  have hdrop : ArcStr.drop h m = (.ok m, []) := by
    simp only [ArcStr.drop, hget, hst, ite_true]
  have hsc : ArcStr.strong_count h m = some none := by
    simp only [ArcStr.strong_count, hget, Option.map_some', hst, ite_true]
  have hisst : ArcStr.is_static h m = some true := by
    simp only [ArcStr.is_static, ThinInner.get_len_flags, hget, Option.map_some', hst]
  have hrun : ∀ (ops : List Op) (H2 : List ArcStr),
      (∀ op ∈ ops, op = Op.cloneOp h ∨ op = Op.dropOp h) →
      (runSys ⟨m, H2⟩ ops).1.mem = m ∧ (runSys ⟨m, H2⟩ ops).2 = [] := by
    intro ops
    induction ops with
    | nil =>
      intro H2 _
      exact ⟨rfl, rfl⟩
    | cons op ops ih =>
      intro H2 hall
      rcases hall op (List.mem_cons_self _ _) with rfl | rfl
      · by_cases hmem : h ∈ H2
        · have hstep : step ⟨m, H2⟩ (Op.cloneOp h) = (.ok ⟨m, ⟨h.ptr⟩ :: H2⟩, []) := by
            simp only [step, if_pos hmem, hclone]
          simp only [runSys, hstep, List.nil_append]
          exact ih (⟨h.ptr⟩ :: H2) fun op2 hm2 => hall op2 (List.mem_cons_of_mem _ hm2)
        · have hstep : step ⟨m, H2⟩ (Op.cloneOp h) = (.ub, []) := by
            simp only [step, if_neg hmem]
          simp [runSys, hstep]
      · by_cases hmem : h ∈ H2
        · have hstep : step ⟨m, H2⟩ (Op.dropOp h) = (.ok ⟨m, removeHandle H2 h⟩, []) := by
            simp only [step, if_pos hmem, hdrop]
          simp only [runSys, hstep, List.nil_append]
          exact ih (removeHandle H2 h) fun op2 hm2 => hall op2 (List.mem_cons_of_mem _ hm2)
        · have hstep : step ⟨m, H2⟩ (Op.dropOp h) = (.ub, []) := by
            simp only [step, if_neg hmem]
          simp [runSys, hstep]
  refine ⟨hclone, hdrop, hsc, hisst, ?_⟩
  intro ops hall
  obtain ⟨hm1, hm2⟩ := hrun ops H hall
  rw [hm1]
  exact ⟨rfl, hm2, rfl, hsc, hisst⟩

/-- Witness for C4: cloning the canonical static empty record leaves memory
untouched with an empty trace, and its share count reads as `None`; via
`static_invariance`. -/
theorem static_invariance_witness :
    ArcStr.clone ArcStr.new initMem = (.ok (ArcStr.new, initMem), [])
    ∧ ArcStr.strong_count ArcStr.new initMem = some none := by
  have hs := static_invariance initMem [] ArcStr.new EMPTY_INNER rfl rfl
  exact ⟨hs.1, hs.2.2.1⟩
